import Mathlib

/-!
Verification development for the komoperm library (src/src/komoperm.hpp), a
compile-time codec between permutations of a fixed multiset and the dense
integer range [0, Size()).

The C++ source is shallowly embedded as executable Lean definitions:

* machine integers (std::size_t) are modelled as Nat with an explicit
  modulus 2^64 at the operations where the source can wrap (the Pascal
  table additions, the ChooseMetaFunc additions, the checked size product);
* throwing functions return Except PermError; the out-of-bounds array read
  that Choose::Get performs when n = 0 is modelled by a dedicated error
  value, since in C++ it is undefined behaviour;
* the output array of PermutationImpl::operator[] together with its
  parallel boolean array named filled is fused into one List (Option a):
  a none entry is an unfilled slot (filled[j] = false), a some entry is a
  slot that has been written (filled[j] = true).  The two arrays are only
  ever read and written together in the source, so the fusion is faithful;
* the template parameter pack ICs... of PermutationImpl is a list of
  ItemCount records processed in order, exactly as ConsumeValues evaluates
  the pack left to right;
* the in-place compacting iterator of ItemCount::IndexImpl (out_itr) is
  modelled by returning the compacted buffer: the next ItemCount in the
  pack only ever reads the prefix that was compacted for it.
-/

namespace Komoperm

/-- Modulus of std::size_t arithmetic (the source is used on 64-bit targets;
all wrapping operations are taken mod this constant). -/
def WORD : Nat := 2 ^ 64

/-- Maximum value of std::size_t, the constant
std::numeric_limits of size_t max() used by PermutationImpl::SizeImpl. -/
def SIZE_MAX : Nat := 2 ^ 64 - 1

/-- Failure modes of the embedded code.  chooseOutOfRange is the
runtime_error thrown by Choose::Get; oobRead marks the undefined-behaviour
read vals_[n-1][m] that Choose::Get performs when n = 0 (the index wraps to
SIZE_MAX); invalidInput covers the two runtime_errors thrown by
PermutationImpl::Index and IndexImpl on malformed input; getOutOfRange is
the runtime_error thrown by PermutationImpl::operator[] when
index >= Size(). -/
inductive PermError where
  | chooseOutOfRange
  | oobRead
  | invalidInput
  | getOutOfRange
  deriving DecidableEq, Repr

/-- Pascal table of Choose<T, N, M>.  chooseVals M i j is the value the
constructor stores in vals_[i][j]: row i gets vals_[i][0] = 1, the Pascal
recurrence for 1 <= j <= min(i, M) (a size_t addition, hence mod 2^64), the
extra diagonal entry vals_[i][i+1] = 1 when i < M, and value-initialised 0
everywhere else.  Each row only reads the previous row, so the table does
not depend on the row bound N. -/
def chooseVals (M : Nat) : Nat → Nat → Nat
  | 0, j => if j = 0 then 1 else if 0 < M ∧ j = 1 then 1 else 0
  | i + 1, j =>
    if j = 0 then 1
    else if j ≤ min (i + 1) M then
      (chooseVals M i j + chooseVals M i (j - 1)) % WORD
    else if i + 1 < M ∧ j = i + 2 then 1
    else 0

/-- Choose::Get of Choose<T, N, M>: returns 0 when m > n, throws when
n > N or m > M, and otherwise reads vals_[n-1][m].  When n = 0 the read
index n-1 wraps around to SIZE_MAX and the access is out of bounds, which
the embedding reports as the oobRead error. -/
def chooseGet (N M n m : Nat) : Except PermError Nat :=
  if m > n then .ok 0
  else if n > N ∨ m > M then .error .chooseOutOfRange
  else if n = 0 then .error .oobRead
  else .ok (chooseVals M (n - 1) m)

/-- ChooseMetaFunc<N, M>::value.  The partial specialisations give
value 1 for M = 0 and for N = M, value 0 for N = 0 < M, and otherwise the
Pascal recurrence; the addition is a compile-time size_t addition and
therefore wraps mod 2^64. -/
def chooseMetaFunc : Nat → Nat → Nat
  | _, 0 => 1
  | 0, _ + 1 => 0
  | n + 1, m + 1 =>
    if n + 1 = m + 1 then 1
    else (chooseMetaFunc n (m + 1) + chooseMetaFunc n m) % WORD

/-- Record form of the template parameters of ItemCount<T, Val, N, C>:
val is the placed symbol Val, remain is the space count N and count is the
copy count C. -/
structure ItemCount (α : Type) where
  val : α
  remain : Nat
  count : Nat
  deriving DecidableEq, Repr

/-- ItemCount::Size(), which the source computes as
ChooseMetaFunc<N, C>::value. -/
def icSize (ic : ItemCount α) : Nat :=
  chooseMetaFunc ic.remain ic.count

/-- ItemCount::IsOk: the number of occurrences of Val in the sequence must
equal C. -/
def icIsOk [DecidableEq α] (v : α) (c : Nat) (l : List α) : Bool :=
  l.count v == c

/-- Wrapping decrement of a size_t counter: the source decrements
remain_cnt with the postfix operator, which wraps around at 0. -/
def decWrap (n : Nat) : Nat :=
  if n = 0 then WORD - 1 else n - 1

/-- ItemCount<T, Val, N, C>::IndexImpl of the Choose<_, N2, M2> table,
walking the first N entries of the buffer.  The list argument is exactly
that prefix (the compacting of the previous ItemCount produced it), the
Nat argument is remain_cnt.  An element equal to Val decrements remain_cnt;
any other element adds choose.Get(N - i - 1, remain_cnt - 1) to the rank
when remain_cnt > 0 (N - i - 1 is the number of entries after the current
one, i.e. the length of the tail) and is copied to the compacted output.
The accumulating additions into ret are size_t additions; they are kept
exact here, which agrees with the source whenever the table entries read
are exact (the regime of every theorem below that inspects the value). -/
def icIndexAux [DecidableEq α] (N2 M2 : Nat) (v : α) :
    List α → Nat → Except PermError (Nat × List α)
  | [], _ => .ok (0, [])
  | x :: xs, remain =>
    if x = v then
      icIndexAux N2 M2 v xs (decWrap remain)
    else do
      let c ← if remain > 0 then chooseGet N2 M2 xs.length (remain - 1) else pure 0
      let (r, out) ← icIndexAux N2 M2 v xs remain
      pure (c + r, x :: out)

/-- ItemCount<T, Val, N, C>::Get of the Choose<_, N2, M2> table.  The
arguments after v are: the template space count N, the fused
array/filled buffer, the counter i of unfilled slots seen so far, the
counter remain_cnt, and the local index.  A filled slot (some) is skipped
without touching i; at an unfilled slot (none) with remain_cnt > 0 the
symbol is placed if remain_cnt >= N - i (short-circuit: the table is not
consulted) or index < choose.Get(N - i - 1, remain_cnt - 1), and otherwise
that table value is subtracted from index; i is incremented for every
unfilled slot.  The final remain_cnt (the subject of the assert at the end
of the source function) is returned alongside the buffer. -/
def icGetAux [DecidableEq α] (N2 M2 : Nat) (v : α) (N : Nat) :
    List (Option α) → Nat → Nat → Nat → Except PermError (List (Option α) × Nat)
  | [], _, remain, _ => .ok ([], remain)
  | some x :: rest, i, remain, index => do
    let (out, r) ← icGetAux N2 M2 v N rest i remain index
    pure (some x :: out, r)
  | none :: rest, i, remain, index =>
    if remain > 0 then
      if remain ≥ N - i then do
        let (out, r) ← icGetAux N2 M2 v N rest (i + 1) (remain - 1) index
        pure (some v :: out, r)
      else do
        let c ← chooseGet N2 M2 (N - i - 1) (remain - 1)
        if index < c then do
          let (out, r) ← icGetAux N2 M2 v N rest (i + 1) (remain - 1) index
          pure (some v :: out, r)
        else do
          let (out, r) ← icGetAux N2 M2 v N rest (i + 1) remain (index - c)
          pure (none :: out, r)
    else do
      let (out, r) ← icGetAux N2 M2 v N rest (i + 1) remain index
      pure (none :: out, r)

/-- Fuel-driven core of MakeItemCountsImplCalc.  The source scans the value
array left to right; an index whose value was already counted is marked
visited and skipped, so the scan is equivalent to: take the first remaining
value v, emit (v, remains, count of v in the whole remaining array), and
continue on the remaining array with every occurrence of v removed.  The
variable remains always equals the length of the remaining array, because
each emitted group removes exactly count elements.  The fuel starts at the
list length and bounds the number of emitted groups, mirroring the loop
bound i < sizeof...(Vals). -/
def micAux [DecidableEq α] : Nat → List α → List (ItemCount α)
  | 0, _ => []
  | _ + 1, [] => []
  | fuel + 1, v :: rest =>
    ⟨v, rest.length + 1, rest.count v + 1⟩ ::
      micAux fuel (rest.filter (fun x => x != v))

/-- MakeItemCountsImplCalc<T, Vals...>: the ItemArray of values, remains
and counts, one record per distinct value in first-occurrence order. -/
def makeItemCounts [DecidableEq α] (l : List α) : List (ItemCount α) :=
  micAux l.length l

/-- Sum of the counts of a pack of ItemCounts. -/
def sumCounts (ics : List (ItemCount α)) : Nat :=
  (ics.map (fun ic => ic.count)).sum

/-- Maximum of the counts of a pack of ItemCounts: the template argument M
of PermutationImpl, computed by MakePermutationImpl as
std::max({kValue.counts[Indices]...}). -/
def maxCounts (ics : List (ItemCount α)) : Nat :=
  ics.foldr (fun ic m => max ic.count m) 0

/-- Product of ICs::Size() over the pack, with the wrapped per-factor
values the source actually multiplies. -/
def prodSizes (ics : List (ItemCount α)) : Nat :=
  (ics.map icSize).prod

/-- Exact (unbounded) product of the per-symbol placement counts
C(remain, count): the mathematical size of the codec. -/
def trueProdIcs (ics : List (ItemCount α)) : Nat :=
  (ics.map (fun ic => Nat.choose ic.remain ic.count)).prod

/-- Exact size product of the codec built for a specification. -/
def trueProd [DecidableEq α] (vals : List α) : Nat :=
  trueProdIcs (makeItemCounts vals)

/-- Loop of PermutationImpl::SizeImpl: for each ItemCount in pack order,
assert(SIZE_MAX / ret > ICs::Size()) and then ret *= ICs::Size() (a
wrapping size_t multiplication).  A failed assert is modelled as none. -/
def sizeImplAux : Nat → List Nat → Option Nat
  | ret, [] => some ret
  | ret, s :: ss =>
    if SIZE_MAX / ret > s then sizeImplAux ((ret * s) % WORD) ss else none

/-- PermutationImpl::SizeImpl with its per-iteration overflow asserts. -/
def sizeImpl (sizes : List Nat) : Option Nat :=
  sizeImplAux 1 sizes

/-- Loop body of PermutationImpl::IndexImpl after the IsOk check: for each
ItemCount in pack order, index += base * ICs::IndexImpl(choose_, buffer)
and base *= ICs::Size(); each IndexImpl call compacts its symbol out of the
buffer for the next ItemCount. -/
def permIndexGo [DecidableEq α] (N2 M2 : Nat) :
    List (ItemCount α) → List α → Nat → Nat → Except PermError Nat
  | [], _, index, _ => .ok index
  | ic :: rest, buf, index, base => do
    let (r, buf2) ← icIndexAux N2 M2 ic.val buf ic.count
    permIndexGo N2 M2 rest buf2 (index + base * r) (base * icSize ic)

/-- PermutationImpl::IndexImpl: throws when any ItemCount::IsOk fails on
the full buffer, otherwise combines the per-ItemCount ranks in mixed
radix. -/
def permIndexImpl [DecidableEq α] (N2 M2 : Nat) (ics : List (ItemCount α))
    (tmp : List α) : Except PermError Nat :=
  if ics.any (fun ic => !icIsOk ic.val ic.count tmp) then .error .invalidInput
  else permIndexGo N2 M2 ics tmp 0 1

/-- Container overload of PermutationImpl::Index for the codec built from
a specification: throws when the container length differs from N, then
copies the values into the scratch buffer and calls IndexImpl. -/
def permIndex [DecidableEq α] (vals : List α) (p : List α) : Except PermError Nat :=
  let ics := makeItemCounts vals
  if p.length ≠ vals.length then .error .invalidInput
  else permIndexImpl vals.length (maxCounts ics) ics p

/-- Loop of PermutationImpl::operator[]: for each ItemCount in pack order,
ICs::Get(choose_, index % ICs::Size(), ret, filled) followed by
index /= ICs::Size().  The final remain_cnt of each Get call is only the
subject of an assert in the source and is dropped here. -/
def permGetAux [DecidableEq α] (N2 M2 : Nat) :
    List (ItemCount α) → Nat → List (Option α) → Except PermError (List (Option α))
  | [], _, arr => .ok arr
  | ic :: rest, index, arr => do
    let (arr2, _) ← icGetAux N2 M2 ic.val ic.remain arr 0 ic.count (index % icSize ic)
    permGetAux N2 M2 rest (index / icSize ic) arr2

/-- PermutationImpl::operator[] for the codec built from a specification:
throws when index >= Size(), otherwise unranks into a value-initialised
output array with an all-false filled array and returns the output array
(unfilled slots keep the value-initialised element, modelled by default). -/
def permGet [DecidableEq α] [Inhabited α] (vals : List α) (index : Nat) :
    Except PermError (List α) :=
  let ics := makeItemCounts vals
  if index ≥ prodSizes ics then .error .getOutOfRange
  else
    (permGetAux vals.length (maxCounts ics) ics index
        (List.replicate vals.length none)).map
      (fun arr => arr.map (fun o => o.getD default))

/-- Merge loop of detail::MergeSort with the fuel that bounds its
iteration count: while both runs are nonempty take the left head when it is
strictly smaller, otherwise the right head; the leftovers follow. -/
def mergeFuel [LinearOrder α] : Nat → List α → List α → List α
  | 0, _, _ => []
  | _ + 1, [], r => r
  | _ + 1, a :: as, [] => a :: as
  | fuel + 1, a :: as, b :: bs =>
    if a < b then a :: mergeFuel fuel as (b :: bs)
    else b :: mergeFuel fuel (a :: as) bs

/-- Recursion of detail::MergeSort: a run of length at most 1 is left
alone, otherwise both halves around the midpoint len / 2 are sorted and
merged. -/
def msortFuel [LinearOrder α] : Nat → List α → List α
  | 0, l => l
  | fuel + 1, l =>
    if l.length ≤ 1 then l
    else
      mergeFuel (l.length)
        (msortFuel fuel (l.take (l.length / 2)))
        (msortFuel fuel (l.drop (l.length / 2)))

/-- detail::MergeSort on a whole sequence. -/
def mergeSortC [LinearOrder α] (l : List α) : List α :=
  msortFuel l.length l

/-- Scan of detail::UniqueCount after sorting: prev starts at the first
element, and the counter increments whenever the next element differs from
prev. -/
def adjCountAux [DecidableEq α] : α → List α → Nat
  | _, [] => 0
  | p, x :: xs => if p ≠ x then 1 + adjCountAux x xs else adjCountAux p xs

/-- detail::UniqueCount: 0 for an empty pack, otherwise one more than the
number of adjacent changes in the merge-sorted sequence. -/
def uniqueCount [LinearOrder α] [DecidableEq α] (l : List α) : Nat :=
  match mergeSortC l with
  | [] => 0
  | x :: xs => 1 + adjCountAux x xs

/-! Pure combinatorial layer: the single-symbol combinatorial number
system on boolean masks, used as the specification that the ItemCount
operations are proved to refine. -/

/-- Rank of a placement mask: scanning left to right, a true slot consumes
one remaining copy and a false slot while copies remain adds
C(length of tail, remaining - 1). -/
def maskRank : List Bool → Nat → Nat
  | [], _ => 0
  | true :: bs, r => maskRank bs (r - 1)
  | false :: bs, r =>
    (if r > 0 then Nat.choose bs.length (r - 1) else 0) + maskRank bs r

/-- Unrank of a local index into a placement mask over n slots with r
copies remaining, mirroring the decisions of ItemCount::Get. -/
def maskUnrank : Nat → Nat → Nat → List Bool
  | 0, _, _ => []
  | n + 1, r, idx =>
    if r > 0 then
      if r ≥ n + 1 ∨ idx < Nat.choose n (r - 1) then
        true :: maskUnrank n (r - 1) idx
      else
        false :: maskUnrank n r (idx - Nat.choose n (r - 1))
    else false :: maskUnrank n r idx

/-- Number of unfilled slots of a fused output buffer. -/
def countNone (arr : List (Option α)) : Nat :=
  arr.countP (fun o => o.isNone)

/-- Fill the unfilled slots of a buffer according to a mask: a true mask
slot places the symbol, a false mask slot leaves the slot unfilled; filled
slots are untouched and do not consume mask entries. -/
def fillMask (v : α) : List (Option α) → List Bool → List (Option α)
  | [], _ => []
  | some x :: rest, mask => some x :: fillMask v rest mask
  | none :: rest, [] => none :: fillMask v rest []
  | none :: rest, b :: mask =>
    (if b then some v else none) :: fillMask v rest mask

/-- Fill the unfilled slots of a buffer with the given values in order;
filled slots are untouched and do not consume values. -/
def fillSub : List (Option α) → List α → List (Option α)
  | [], _ => []
  | some x :: rest, sub => some x :: fillSub rest sub
  | none :: rest, [] => none :: fillSub rest []
  | none :: rest, s :: sub => some s :: fillSub rest sub

/-- Interleave a symbol into a value sequence according to a mask: true
slots produce the symbol, false slots consume the next value. -/
def interleave (v : α) : List Bool → List α → List α
  | [], _ => []
  | true :: mask, ss => v :: interleave v mask ss
  | false :: mask, s :: ss => s :: interleave v mask ss
  | false :: mask, [] => interleave v mask []

/-- First-occurrence deduplication, the specification of the order in
which MakeItemCountsImplCalc emits its entries: scan left to right and
append each value not seen before. -/
def firstOccDedup [DecidableEq α] (l : List α) : List α :=
  l.foldl (fun acc x => if x ∈ acc then acc else acc ++ [x]) []

/-- Validity of a pack of ItemCounts relative to the table bounds N2 and
M2, as MakePermutationImpl produces it: positive counts, each remain equal
to its count plus all later counts, pairwise distinct symbols, and remain
and count within the table bounds. -/
def icsGood (N2 M2 : Nat) : List (ItemCount α) → Prop
  | [] => True
  | ic :: rest =>
    1 ≤ ic.count ∧ ic.remain = ic.count + sumCounts rest ∧
      (∀ ic2 ∈ rest, ic.val ≠ ic2.val) ∧ ic.remain ≤ N2 ∧ ic.count ≤ M2 ∧
      icsGood N2 M2 rest

/-! Lemmas about the binomial table. -/

theorem chooseVals_exact (M : Nat) :
    ∀ i j, j ≤ min (i + 1) M → Nat.choose (i + 1) j < WORD →
      chooseVals M i j = Nat.choose (i + 1) j := by
  intro i
  induction i with
  | zero =>
    intro j hj _
    have hj1 : j ≤ 1 := le_trans hj (min_le_left _ _)
    match j, hj1 with
    | 0, _ => simp [chooseVals]
    | 1, _ =>
      have hM : 0 < M := lt_of_lt_of_le Nat.zero_lt_one (le_trans hj (min_le_right _ _))
      simp [chooseVals, hM]
  | succ i ih =>
    intro j hj hb
    match j with
    | 0 => simp [chooseVals]
    | k + 1 =>
      have hb' : Nat.choose (i + 2) (k + 1) < WORD := hb
      show chooseVals M (i + 1) (k + 1) = Nat.choose (i + 2) (k + 1)
      by_cases hcase : k + 1 ≤ min (i + 1) M
      · have e1 : chooseVals M (i + 1) (k + 1) =
            (chooseVals M i (k + 1) + chooseVals M i k) % WORD := by
          simp [chooseVals, hcase]
        have hsum : Nat.choose (i + 1) k + Nat.choose (i + 1) (k + 1) =
            Nat.choose (i + 2) (k + 1) := (Nat.choose_succ_succ' (i + 1) k).symm
        have hb1 : Nat.choose (i + 1) (k + 1) < WORD :=
          lt_of_le_of_lt (Nat.choose_le_choose (k + 1) (by omega)) hb'
        have hb2 : Nat.choose (i + 1) k < WORD := by omega
        have hk : k ≤ min (i + 1) M := le_trans (Nat.le_succ k) hcase
        rw [e1, ih (k + 1) hcase hb1, ih k hk hb2]
        have e2 : Nat.choose (i + 1) (k + 1) + Nat.choose (i + 1) k =
            Nat.choose (i + 2) (k + 1) := by omega
        rw [e2, Nat.mod_eq_of_lt hb']
      · have hM : k + 1 ≤ M := le_trans hj (min_le_right _ _)
        have hup : k + 1 ≤ i + 2 := le_trans hj (min_le_left _ _)
        have hlow : ¬ (k + 1 ≤ i + 1) := fun h => hcase (le_min h hM)
        have hk : k + 1 = i + 2 := by omega
        have hMlt : i + 1 < M := by omega
        have e1 : chooseVals M (i + 1) (k + 1) = 1 := by
          have h2 : ¬ (k + 1 ≤ min (i + 1) M) := hcase
          simp only [chooseVals, if_neg (by omega : ¬ (k + 1 = 0)), if_neg h2]
          simp [hMlt, hk]
        rw [e1, hk, Nat.choose_self]

theorem chooseGet_exact (N M n m : Nat) (h1 : 1 ≤ n) (h2 : n ≤ N) (h3 : m ≤ M)
    (hb : Nat.choose n m < WORD) :
    chooseGet N M n m = .ok (Nat.choose n m) := by
  by_cases hmn : m > n
  · simp [chooseGet, hmn, Nat.choose_eq_zero_of_lt hmn]
  · have hmn' : m ≤ n := le_of_not_lt hmn
    have hrange : ¬ (n > N ∨ m > M) := by omega
    have hn0 : ¬ (n = 0) := by omega
    simp only [chooseGet, if_neg hmn, if_neg hrange, if_neg hn0]
    have hn : n - 1 + 1 = n := by omega
    have hj : m ≤ min (n - 1 + 1) M := by
      rw [hn]; exact le_min hmn' h3
    rw [chooseVals_exact M (n - 1) m hj (by rw [hn]; exact hb), hn]

theorem chooseMetaFunc_eq (n m : Nat) : chooseMetaFunc n m = Nat.choose n m % WORD := by
  induction n generalizing m with
  | zero =>
    match m with
    | 0 => simp [chooseMetaFunc, WORD]
    | m + 1 => simp [chooseMetaFunc]
  | succ n ih =>
    match m with
    | 0 => simp [chooseMetaFunc, WORD]
    | m + 1 =>
      by_cases h : n + 1 = m + 1
      · have hm : m = n := by omega
        subst hm
        simp [chooseMetaFunc, Nat.choose_self, WORD]
      · simp only [chooseMetaFunc, if_neg h, ih]
        rw [← Nat.add_mod, Nat.add_comm, ← Nat.choose_succ_succ']

/-! Monotonicity of binomial coefficients along diagonal shifts. -/

theorem choose_le_diag (a b d : Nat) : Nat.choose a b ≤ Nat.choose (a + d) (b + d) := by
  induction d with
  | zero => simp
  | succ d ih =>
    have h2 : Nat.choose (a + d) (b + d) ≤ Nat.choose (a + d + 1) (b + d + 1) := by
      rw [Nat.choose_succ_succ' (a + d) (b + d)]
      exact Nat.le_add_right _ _
    exact le_trans ih h2

theorem choose_le_of {a b n c : Nat} (hbc : b ≤ c) (hc : c ≤ n)
    (hd : a - b ≤ n - c) : Nat.choose a b ≤ Nat.choose n c := by
  by_cases hab : a < b
  · rw [Nat.choose_eq_zero_of_lt hab]; exact Nat.zero_le _
  · have hab' : b ≤ a := le_of_not_lt hab
    calc Nat.choose a b ≤ Nat.choose (a + (c - b)) (b + (c - b)) := choose_le_diag a b (c - b)
      _ = Nat.choose (a + (c - b)) c := by rw [Nat.add_sub_cancel' hbc]
      _ ≤ Nat.choose n c := Nat.choose_le_choose c (by omega)

/-! Lemmas about the pure mask layer. -/

theorem maskUnrank_length : ∀ n r idx, (maskUnrank n r idx).length = n := by
  intro n
  induction n with
  | zero => intro r idx; rfl
  | succ n ih =>
    intro r idx
    simp only [maskUnrank]
    split
    · split <;> simp [ih]
    · simp [ih]

theorem maskUnrank_count_true :
    ∀ n r idx, r ≤ n → (maskUnrank n r idx).count true = r := by
  intro n
  induction n with
  | zero => intro r idx hr; interval_cases r; rfl
  | succ n ih =>
    intro r idx hr
    match r with
    | 0 =>
      simp only [maskUnrank, if_neg (by omega : ¬ ((0 : Nat) > 0))]
      rw [List.count_cons_of_ne (by simp), ih 0 idx (by omega)]
    | rr + 1 =>
      simp only [maskUnrank, if_pos (by omega : rr + 1 > 0), Nat.add_sub_cancel]
      by_cases hc : rr + 1 ≥ n + 1 ∨ idx < Nat.choose n rr
      · rw [if_pos hc, List.count_cons_self, ih rr idx (by omega)]
      · have hle : rr + 1 ≤ n := by
          rcases Nat.lt_or_ge (rr + 1) (n + 1) with h | h
          · omega
          · exact absurd (Or.inl h) hc
        rw [if_neg hc, List.count_cons_of_ne (by simp),
          ih (rr + 1) _ hle]

theorem maskRank_lt :
    ∀ (mask : List Bool) r, mask.count true = r →
      maskRank mask r < Nat.choose mask.length r := by
  intro mask
  induction mask with
  | nil =>
    intro r hr
    simp only [List.count_nil] at hr
    subst hr
    simp [maskRank]
  | cons b bs ih =>
    intro r hr
    cases b with
    | true =>
      rw [List.count_cons_self] at hr
      subst hr
      have h1 := ih (bs.count true) rfl
      simp only [maskRank, List.length_cons, Nat.add_sub_cancel]
      have h2 : Nat.choose bs.length (bs.count true) ≤
          Nat.choose (bs.length + 1) (bs.count true + 1) := by
        rw [Nat.choose_succ_succ' bs.length (bs.count true)]
        exact Nat.le_add_right _ _
      omega
    | false =>
      rw [List.count_cons_of_ne (by simp)] at hr
      have h1 := ih r hr
      simp only [maskRank, List.length_cons]
      match r with
      | 0 => simpa using h1
      | rr + 1 =>
        rw [Nat.choose_succ_succ' bs.length rr]
        simp only [Nat.add_sub_cancel, gt_iff_lt, Nat.succ_pos, if_pos]
        omega

theorem maskRank_maskUnrank :
    ∀ n r idx, r ≤ n → idx < Nat.choose n r →
      maskRank (maskUnrank n r idx) r = idx := by
  intro n
  induction n with
  | zero =>
    intro r idx hr hidx
    interval_cases r
    simp only [Nat.choose_self] at hidx
    interval_cases idx
    rfl
  | succ n ih =>
    intro r idx hr hidx
    match r with
    | 0 =>
      simp only [Nat.choose_zero_right] at hidx
      interval_cases idx
      simp only [maskUnrank, if_neg (by omega : ¬ ((0 : Nat) > 0))]
      simp only [maskRank, if_neg (by omega : ¬ ((0 : Nat) > 0)), Nat.zero_add]
      exact ih 0 0 (by omega) (by simp)
    | rr + 1 =>
      simp only [maskUnrank, if_pos (by omega : rr + 1 > 0), Nat.add_sub_cancel]
      by_cases hc : rr + 1 ≥ n + 1 ∨ idx < Nat.choose n rr
      · rw [if_pos hc]
        simp only [maskRank, Nat.add_sub_cancel]
        rcases hc with hc | hc
        · have hrn : rr + 1 = n + 1 := by omega
          have hidx0 : idx = 0 := by
            have : Nat.choose (n + 1) (rr + 1) = 1 := by rw [hrn, Nat.choose_self]
            omega
          subst hidx0
          exact ih rr 0 (by omega) (Nat.choose_pos (by omega))
        · exact ih rr idx (by omega) hc
      · rw [if_neg hc]
        push_neg at hc
        obtain ⟨hc1, hc2⟩ := hc
        simp only [maskRank, Nat.add_sub_cancel, gt_iff_lt, Nat.succ_pos, if_pos,
          maskUnrank_length]
        have hpascal : Nat.choose (n + 1) (rr + 1) =
            Nat.choose n rr + Nat.choose n (rr + 1) := Nat.choose_succ_succ' n rr
        rw [ih (rr + 1) (idx - Nat.choose n rr) (by omega) (by omega)]
        omega

theorem maskUnrank_maskRank :
    ∀ (mask : List Bool) r, mask.count true = r →
      maskUnrank mask.length r (maskRank mask r) = mask := by
  intro mask
  induction mask with
  | nil => intro r _; rfl
  | cons b bs ih =>
    intro r hr
    cases b with
    | true =>
      rw [List.count_cons_self] at hr
      have hlt : maskRank bs (bs.count true) < Nat.choose bs.length (bs.count true) :=
        maskRank_lt bs (bs.count true) rfl
      simp only [List.length_cons, maskUnrank, maskRank]
      have hr1 : r - 1 = bs.count true := by omega
      rw [if_pos (by omega : r > 0), if_pos (Or.inr (by rw [hr1]; exact hlt)), hr1]
      rw [ih (bs.count true) rfl]
    | false =>
      rw [List.count_cons_of_ne (by simp)] at hr
      simp only [List.length_cons, maskUnrank, maskRank]
      match r with
      | 0 =>
        rw [if_neg (by omega : ¬ ((0 : Nat) > 0))]
        simp only [if_neg (by omega : ¬ ((0 : Nat) > 0)), Nat.zero_add]
        rw [ih 0 hr]
      | rr + 1 =>
        have hcb : bs.count true = rr + 1 := hr
        have hlen : rr + 1 ≤ bs.length := hcb ▸ List.count_le_length true bs
        rw [if_pos (by omega : rr + 1 > 0)]
        simp only [Nat.add_sub_cancel, gt_iff_lt, Nat.succ_pos, if_pos]
        have hnot : ¬ (rr + 1 ≥ bs.length + 1 ∨
            Nat.choose bs.length rr + maskRank bs (rr + 1) < Nat.choose bs.length rr) := by
          push_neg
          exact ⟨by omega, by omega⟩
        rw [if_neg hnot, Nat.add_sub_cancel_left, ih (rr + 1) hr]

/-! Lemmas about the buffer helpers. -/

theorem countNone_nil : countNone ([] : List (Option α)) = 0 := rfl

theorem countNone_cons_some (x : α) (rest : List (Option α)) :
    countNone (some x :: rest) = countNone rest := by
  simp [countNone]

theorem countNone_cons_none (rest : List (Option α)) :
    countNone (none :: rest) = countNone rest + 1 := by
  simp [countNone]

theorem countNone_replicate (n : Nat) :
    countNone (List.replicate n (none : Option α)) = n := by
  induction n with
  | zero => rfl
  | succ n ih => rw [List.replicate_succ, countNone_cons_none, ih]

theorem fillSub_nil : ∀ arr : List (Option α), fillSub arr [] = arr := by
  intro arr
  induction arr with
  | nil => rfl
  | cons o rest ih => cases o <;> simp [fillSub, ih]

theorem fillMask_nil_mask (v : α) : ∀ arr : List (Option α), fillMask v arr [] = arr := by
  intro arr
  induction arr with
  | nil => rfl
  | cons o rest ih => cases o <;> simp [fillMask, ih]

theorem fillSub_replicate (n : Nat) :
    ∀ sub : List α, sub.length = n →
      fillSub (List.replicate n (none : Option α)) sub = sub.map some := by
  induction n with
  | zero =>
    intro sub h
    rw [List.eq_nil_of_length_eq_zero h]
    rfl
  | succ n ih =>
    intro sub h
    match sub with
    | s :: sub =>
      rw [List.replicate_succ]
      simp only [fillSub, List.map_cons]
      rw [ih sub (by simpa using h)]

theorem countNone_fillMask (v : α) :
    ∀ (arr : List (Option α)) (mask : List Bool), mask.length = countNone arr →
      countNone (fillMask v arr mask) + mask.count true = countNone arr := by
  intro arr
  induction arr with
  | nil =>
    intro mask h
    rw [countNone_nil] at h
    rw [List.eq_nil_of_length_eq_zero h]
    rfl
  | cons o rest ih =>
    intro mask h
    cases o with
    | some x =>
      rw [countNone_cons_some] at h ⊢
      simp only [fillMask, countNone_cons_some]
      exact ih mask h
    | none =>
      rw [countNone_cons_none] at h
      match mask with
      | b :: mask =>
        have h2 : mask.length = countNone rest := by simpa using h
        cases b with
        | true =>
          show countNone (some v :: fillMask v rest mask) + (true :: mask).count true =
            countNone (none :: rest)
          rw [countNone_cons_some, countNone_cons_none, List.count_cons_self]
          have := ih mask h2
          omega
        | false =>
          show countNone (none :: fillMask v rest mask) + (false :: mask).count true =
            countNone (none :: rest)
          rw [countNone_cons_none, countNone_cons_none,
            List.count_cons_of_ne (by simp : (true : Bool) ≠ false)]
          have := ih mask h2
          omega

theorem interleave_length (v : α) :
    ∀ (mask : List Bool) (ss : List α), mask.count false = ss.length →
      (interleave v mask ss).length = mask.length := by
  intro mask
  induction mask with
  | nil => intro ss _; rfl
  | cons b bs ih =>
    intro ss h
    cases b with
    | true =>
      rw [List.count_cons_of_ne (by simp)] at h
      simp [interleave, ih ss h]
    | false =>
      rw [List.count_cons_self] at h
      match ss with
      | s :: ss =>
        simp only [interleave, List.length_cons]
        rw [ih ss (by simpa using h)]

theorem interleave_map_beq [DecidableEq α] (v : α) :
    ∀ (mask : List Bool) (ss : List α), mask.count false = ss.length →
      (∀ s ∈ ss, s ≠ v) →
      (interleave v mask ss).map (fun x => x == v) = mask := by
  intro mask
  induction mask with
  | nil => intro ss _ _; rfl
  | cons b bs ih =>
    intro ss h hne
    cases b with
    | true =>
      rw [List.count_cons_of_ne (by simp)] at h
      simp only [interleave, List.map_cons, beq_self_eq_true]
      rw [ih ss h hne]
    | false =>
      rw [List.count_cons_self] at h
      match ss with
      | s :: ss =>
        simp only [interleave, List.map_cons]
        have hs : (s == v) = false := by
          simp only [beq_eq_false_iff_ne, ne_eq]
          exact hne s (List.mem_cons_self s ss)
        rw [hs, ih ss (by simpa using h) (fun t ht => hne t (List.mem_cons_of_mem s ht))]

theorem interleave_filter [DecidableEq α] (v : α) :
    ∀ (mask : List Bool) (ss : List α), mask.count false = ss.length →
      (∀ s ∈ ss, s ≠ v) →
      (interleave v mask ss).filter (fun x => x != v) = ss := by
  intro mask
  induction mask with
  | nil =>
    intro ss h _
    rw [List.count_nil] at h
    rw [List.eq_nil_of_length_eq_zero h.symm]
    rfl
  | cons b bs ih =>
    intro ss h hne
    cases b with
    | true =>
      rw [List.count_cons_of_ne (by simp)] at h
      simp only [interleave, List.filter_cons]
      rw [if_neg (by simp), ih ss h hne]
    | false =>
      rw [List.count_cons_self] at h
      match ss with
      | s :: ss =>
        simp only [interleave, List.filter_cons]
        rw [if_pos (by simpa using hne s (List.mem_cons_self s ss)),
          ih ss (by simpa using h) (fun t ht => hne t (List.mem_cons_of_mem s ht))]

theorem interleave_count [DecidableEq α] (v : α) :
    ∀ (mask : List Bool) (ss : List α) (w : α), mask.count false = ss.length →
      (interleave v mask ss).count w =
        (if w = v then mask.count true else 0) + ss.count w := by
  intro mask
  induction mask with
  | nil =>
    intro ss w h
    rw [List.count_nil] at h
    rw [List.eq_nil_of_length_eq_zero h.symm]
    simp [interleave]
  | cons b bs ih =>
    intro ss w h
    cases b with
    | true =>
      rw [List.count_cons_of_ne (by simp)] at h
      show (v :: interleave v bs ss).count w =
        (if w = v then (true :: bs).count true else 0) + ss.count w
      rw [List.count_cons_self true bs]
      by_cases hw : w = v
      · rw [hw, List.count_cons_self, ih ss v h, if_pos rfl, if_pos rfl]
        omega
      · rw [List.count_cons_of_ne hw, ih ss w h, if_neg hw, if_neg hw]
    | false =>
      rw [List.count_cons_self] at h
      match ss with
      | s :: ss =>
        show (s :: interleave v bs ss).count w =
          (if w = v then (false :: bs).count true else 0) + (s :: ss).count w
        rw [List.count_cons_of_ne (by simp : (true : Bool) ≠ false)]
        have h2 : bs.count false = ss.length := by simpa using h
        by_cases hw : w = s
        · subst hw
          rw [List.count_cons_self, List.count_cons_self, ih ss w h2]
          omega
        · rw [List.count_cons_of_ne hw, List.count_cons_of_ne hw, ih ss w h2]

theorem count_true_map_beq [DecidableEq α] (v : α) :
    ∀ l : List α, (l.map (fun x => x == v)).count true = l.count v := by
  intro l
  induction l with
  | nil => rfl
  | cons x xs ih =>
    by_cases hx : x = v
    · subst hx
      simp only [List.map_cons, beq_self_eq_true]
      rw [List.count_cons_self, List.count_cons_self, ih]
    · have hb : (x == v) = false := by simpa using hx
      simp only [List.map_cons, hb]
      rw [List.count_cons_of_ne (by simp), List.count_cons_of_ne (Ne.symm hx), ih]

theorem count_false_map_beq [DecidableEq α] (v : α) :
    ∀ l : List α, (l.map (fun x => x == v)).count false = l.length - l.count v := by
  intro l
  induction l with
  | nil => rfl
  | cons x xs ih =>
    have hcl : xs.count v ≤ xs.length := List.count_le_length v xs
    by_cases hx : x = v
    · subst hx
      simp only [List.map_cons, beq_self_eq_true, List.length_cons]
      rw [List.count_cons_self, List.count_cons_of_ne (by simp), ih]
      omega
    · have hb : (x == v) = false := by simpa using hx
      simp only [List.map_cons, hb, List.length_cons]
      rw [List.count_cons_self, List.count_cons_of_ne (Ne.symm hx), ih]
      omega

theorem fillSub_interleave (v : α) :
    ∀ (arr : List (Option α)) (mask : List Bool) (ss : List α),
      mask.length = countNone arr → mask.count false = ss.length →
      fillSub arr (interleave v mask ss) = fillSub (fillMask v arr mask) ss := by
  intro arr
  induction arr with
  | nil => intro mask ss _ _; rfl
  | cons o rest ih =>
    intro mask ss h1 h2
    cases o with
    | some x =>
      rw [countNone_cons_some] at h1
      show fillSub (some x :: rest) (interleave v mask ss) =
        fillSub (some x :: fillMask v rest mask) ss
      simp only [fillSub]
      rw [ih mask ss h1 h2]
    | none =>
      rw [countNone_cons_none] at h1
      match mask with
      | b :: mask =>
        have h1' : mask.length = countNone rest := by simpa using h1
        cases b with
        | true =>
          rw [List.count_cons_of_ne (by simp)] at h2
          show fillSub (none :: rest) (v :: interleave v mask ss) =
            fillSub (some v :: fillMask v rest mask) ss
          simp only [fillSub]
          rw [ih mask ss h1' h2]
        | false =>
          rw [List.count_cons_self] at h2
          match ss with
          | s :: ss =>
            show fillSub (none :: rest) (s :: interleave v mask ss) =
              fillSub (none :: fillMask v rest mask) (s :: ss)
            simp only [fillSub]
            rw [ih mask ss h1' (by simpa using h2)]

theorem fillSub_split [DecidableEq α] (v : α) :
    ∀ (arr : List (Option α)) (buf : List α), buf.length = countNone arr →
      fillSub arr buf =
        fillSub (fillMask v arr (buf.map (fun x => x == v)))
          (buf.filter (fun x => x != v)) := by
  intro arr
  induction arr with
  | nil => intro buf _; rfl
  | cons o rest ih =>
    intro buf h
    cases o with
    | some x =>
      rw [countNone_cons_some] at h
      show fillSub (some x :: rest) buf =
        fillSub (some x :: fillMask v rest (buf.map (fun x => x == v)))
          (buf.filter (fun x => x != v))
      simp only [fillSub]
      rw [ih buf h]
    | none =>
      rw [countNone_cons_none] at h
      match buf with
      | s :: bs =>
        have h' : bs.length = countNone rest := by simpa using h
        by_cases hs : s = v
        · subst hs
          have hmap : (s :: bs).map (fun x => x == s) = true :: bs.map (fun x => x == s) := by
            simp
          have hfil : (s :: bs).filter (fun x => x != s) = bs.filter (fun x => x != s) := by
            rw [List.filter_cons, if_neg (by simp)]
          rw [hmap, hfil]
          show fillSub (none :: rest) (s :: bs) =
            fillSub (some s :: fillMask s rest (bs.map (fun x => x == s)))
              (bs.filter (fun x => x != s))
          simp only [fillSub]
          rw [ih bs h']
        · have hmap : (s :: bs).map (fun x => x == v) = false :: bs.map (fun x => x == v) := by
            simp only [List.map_cons]
            congr 1
            simpa using hs
          have hfil : (s :: bs).filter (fun x => x != v) =
              s :: bs.filter (fun x => x != v) := by
            rw [List.filter_cons, if_pos (by simpa using hs)]
          rw [hmap, hfil]
          show fillSub (none :: rest) (s :: bs) =
            fillSub (none :: fillMask v rest (bs.map (fun x => x == v)))
              (s :: bs.filter (fun x => x != v))
          simp only [fillSub]
          rw [ih bs h']

/-! Refinement lemmas: the ItemCount operations against the mask layer. -/

theorem ok_bind {β γ : Type} (a : β) (f : β → Except PermError γ) :
    (Except.ok a >>= f : Except PermError γ) = f a := rfl

theorem chooseGet_ok (N M n m : Nat) (h1 : 1 ≤ n) (h2 : n ≤ N) (h3 : m ≤ M) :
    ∃ c, chooseGet N M n m = .ok c := by
  by_cases hmn : m > n
  · exact ⟨0, by simp [chooseGet, hmn]⟩
  · exact ⟨chooseVals M (n - 1) m, by
      simp only [chooseGet, if_neg hmn, if_neg (by omega : ¬ (n > N ∨ m > M)),
        if_neg (by omega : ¬ (n = 0))]⟩

theorem decWrap_pos {n : Nat} (h : 0 < n) : decWrap n = n - 1 := by
  unfold decWrap
  rw [if_neg (by omega)]

theorem icIndexAux_cons [DecidableEq α] (N2 M2 : Nat) (v x : α) (xs : List α)
    (remain : Nat) :
    icIndexAux N2 M2 v (x :: xs) remain =
      (if x = v then icIndexAux N2 M2 v xs (decWrap remain)
      else do
        let c ← if remain > 0 then chooseGet N2 M2 xs.length (remain - 1) else pure 0
        let p ← icIndexAux N2 M2 v xs remain
        pure (c + p.1, x :: p.2)) := rfl

theorem icIndexAux_exact [DecidableEq α] (N2 M2 : Nat) (v : α) (NN CC : Nat)
    (hN : NN ≤ N2) (hC : CC ≤ M2) (hCN : CC ≤ NN) (hb : Nat.choose NN CC < WORD) :
    ∀ (buf : List α) (remain : Nat),
      buf.count v = remain → remain ≤ CC → buf.length + CC ≤ NN + remain →
      icIndexAux N2 M2 v buf remain =
        .ok (maskRank (buf.map (fun x => x == v)) remain,
             buf.filter (fun x => x != v)) := by
  intro buf
  induction buf with
  | nil =>
    intro remain h1 _ _
    rw [List.count_nil] at h1
    subst h1
    rfl
  | cons x xs ih =>
    intro remain h1 h2 h3
    rw [icIndexAux_cons]
    have hlen : (x :: xs).length = xs.length + 1 := rfl
    rw [hlen] at h3
    by_cases hx : x = v
    · rw [if_pos hx]
      rw [hx] at h1 ⊢
      rw [List.count_cons_self] at h1
      have hrem : 0 < remain := by omega
      rw [decWrap_pos hrem,
        ih (remain - 1) (by omega) (by omega) (by omega)]
      simp only [List.map_cons, beq_self_eq_true, List.filter_cons, bne_self_eq_false,
        Bool.false_eq_true, if_false]
      have e2 : maskRank (true :: xs.map (fun x => x == v)) remain =
          maskRank (xs.map (fun x => x == v)) (remain - 1) := rfl
      rw [e2]
    · have hxb : (x == v) = false := by simpa using hx
      have hfil : (x :: xs).filter (fun x => x != v) =
          x :: xs.filter (fun x => x != v) := by
        rw [List.filter_cons, if_pos (by simp [bne, hxb])]
      rw [if_neg hx]
      rw [List.count_cons_of_ne (Ne.symm hx)] at h1
      match remain with
      | 0 =>
        rw [if_neg (by omega)]
        rw [show (pure 0 : Except PermError Nat) = .ok 0 from rfl, ok_bind,
          ih 0 h1 (by omega) (by omega)]
        simp only [ok_bind]
        rw [hfil]
        simp only [List.map_cons, hxb]
        have e3 : maskRank (false :: xs.map (fun x => x == v)) 0 =
            0 + maskRank (xs.map (fun x => x == v)) 0 := rfl
        rw [e3]
        rfl
      | rr + 1 =>
        have hxs1 : 1 ≤ xs.length := by
          have := List.count_le_length v xs
          omega
        have hxsN : xs.length ≤ N2 := by omega
        have hrrM : rr ≤ M2 := by omega
        have hble : Nat.choose xs.length rr ≤ Nat.choose NN CC := by
          apply choose_le_of (by omega) hCN
          omega
        rw [if_pos (by omega)]
        have e2 : rr + 1 - 1 = rr := by omega
        rw [e2, chooseGet_exact N2 M2 xs.length rr hxs1 hxsN hrrM (by omega), ok_bind,
          ih (rr + 1) h1 h2 (by omega)]
        simp only [ok_bind]
        rw [hfil]
        simp only [List.map_cons, hxb]
        have e3 : maskRank (false :: xs.map (fun x => x == v)) (rr + 1) =
            Nat.choose xs.length rr + maskRank (xs.map (fun x => x == v)) (rr + 1) := by
          simp only [maskRank, Nat.add_sub_cancel, gt_iff_lt, Nat.succ_pos, if_pos,
            List.length_map]
        rw [e3]
        rfl

theorem icIndexAux_ok [DecidableEq α] (N2 M2 : Nat) (v : α) :
    ∀ (buf : List α) (remain : Nat),
      buf.count v = remain → remain ≤ M2 → buf.length ≤ N2 →
      ∃ r, icIndexAux N2 M2 v buf remain =
        .ok (r, buf.filter (fun x => x != v)) := by
  intro buf
  induction buf with
  | nil =>
    intro remain h1 _ _
    rw [List.count_nil] at h1
    subst h1
    exact ⟨0, rfl⟩
  | cons x xs ih =>
    intro remain h1 h2 h3
    rw [icIndexAux_cons]
    have hlen : (x :: xs).length = xs.length + 1 := rfl
    rw [hlen] at h3
    by_cases hx : x = v
    · rw [if_pos hx]
      rw [hx] at h1 ⊢
      rw [List.count_cons_self] at h1
      have hrem : 0 < remain := by omega
      obtain ⟨r, hr⟩ := ih (remain - 1) (by omega) (by omega) (by omega)
      refine ⟨r, ?_⟩
      rw [decWrap_pos hrem, hr]
      simp only [List.filter_cons, bne_self_eq_false, Bool.false_eq_true, if_false]
    · have hxb : (x == v) = false := by simpa using hx
      have hfil : (x :: xs).filter (fun x => x != v) =
          x :: xs.filter (fun x => x != v) := by
        rw [List.filter_cons, if_pos (by simp [bne, hxb])]
      rw [if_neg hx]
      rw [List.count_cons_of_ne (Ne.symm hx)] at h1
      obtain ⟨r, hr⟩ := ih remain h1 h2 (by omega)
      match remain with
      | 0 =>
        refine ⟨0 + r, ?_⟩
        rw [if_neg (by omega),
          show (pure 0 : Except PermError Nat) = .ok 0 from rfl, ok_bind, hr]
        simp only [ok_bind]
        rw [hfil]
        rfl
      | rr + 1 =>
        have hxs1 : 1 ≤ xs.length := by
          have := List.count_le_length v xs
          omega
        obtain ⟨c, hc⟩ := chooseGet_ok N2 M2 xs.length rr hxs1 (by omega) (by omega)
        refine ⟨c + r, ?_⟩
        have e2 : rr + 1 - 1 = rr := by omega
        rw [if_pos (by omega), e2, hc, ok_bind, hr]
        simp only [ok_bind]
        rw [hfil]
        rfl

theorem icGetAux_cons_some [DecidableEq α] (N2 M2 : Nat) (v : α) (NN : Nat) (x : α)
    (rest : List (Option α)) (i remain index : Nat) :
    icGetAux N2 M2 v NN (some x :: rest) i remain index =
      (do
        let p ← icGetAux N2 M2 v NN rest i remain index
        pure (some x :: p.1, p.2)) := rfl

theorem icGetAux_cons_none [DecidableEq α] (N2 M2 : Nat) (v : α) (NN : Nat)
    (rest : List (Option α)) (i remain index : Nat) :
    icGetAux N2 M2 v NN (none :: rest) i remain index =
      (if remain > 0 then
        if remain ≥ NN - i then do
          let p ← icGetAux N2 M2 v NN rest (i + 1) (remain - 1) index
          pure (some v :: p.1, p.2)
        else do
          let c ← chooseGet N2 M2 (NN - i - 1) (remain - 1)
          if index < c then do
            let p ← icGetAux N2 M2 v NN rest (i + 1) (remain - 1) index
            pure (some v :: p.1, p.2)
          else do
            let p ← icGetAux N2 M2 v NN rest (i + 1) remain (index - c)
            pure (none :: p.1, p.2)
      else do
        let p ← icGetAux N2 M2 v NN rest (i + 1) remain index
        pure (none :: p.1, p.2)) := rfl

theorem maskUnrank_succ (k r idx : Nat) :
    maskUnrank (k + 1) r idx =
      (if r > 0 then
        (if r ≥ k + 1 ∨ idx < Nat.choose k (r - 1) then
          true :: maskUnrank k (r - 1) idx
        else false :: maskUnrank k r (idx - Nat.choose k (r - 1)))
      else false :: maskUnrank k r idx) := rfl

theorem maskUnrank_succ_pos (k rr idx : Nat) :
    maskUnrank (k + 1) (rr + 1) idx =
      (if rr + 1 ≥ k + 1 ∨ idx < Nat.choose k rr then
        true :: maskUnrank k rr idx
      else false :: maskUnrank k (rr + 1) (idx - Nat.choose k rr)) := by
  rw [maskUnrank_succ, if_pos (by omega : rr + 1 > 0)]
  simp only [Nat.add_sub_cancel]

theorem icGetAux_exact [DecidableEq α] (N2 M2 : Nat) (v : α) (NN CC : Nat)
    (hN2 : NN ≤ N2) (hC : CC ≤ M2) (hCN : CC ≤ NN) (hb : Nat.choose NN CC < WORD) :
    ∀ (arr : List (Option α)) (i remain idx : Nat),
      countNone arr = NN - i → i ≤ NN → remain ≤ CC → CC - remain ≤ i →
      remain ≤ NN - i →
      icGetAux N2 M2 v NN arr i remain idx =
        .ok (fillMask v arr (maskUnrank (NN - i) remain idx), 0) := by
  intro arr
  induction arr with
  | nil =>
    intro i remain idx h1 _ _ _ h5
    rw [countNone_nil] at h1
    have hr0 : remain = 0 := by omega
    subst hr0
    rw [← h1]
    rfl
  | cons o rest ih =>
    intro i remain idx h1 h2 h3 h4 h5
    cases o with
    | some x =>
      rw [countNone_cons_some] at h1
      rw [icGetAux_cons_some, ih i remain idx h1 h2 h3 h4 h5]
      simp only [ok_bind]
      rfl
    | none =>
      rw [countNone_cons_none] at h1
      have hiNN : i < NN := by omega
      obtain ⟨k, hk⟩ : ∃ k, NN - i = k + 1 := ⟨NN - i - 1, by omega⟩
      have hk2 : NN - (i + 1) = k := by omega
      have hk3 : NN - i - 1 = k := by omega
      rw [icGetAux_cons_none]
      match remain with
      | 0 =>
        rw [if_neg (by omega : ¬ ((0 : Nat) > 0)),
          ih (i + 1) 0 idx (by omega) (by omega) (by omega) (by omega) (by omega)]
        simp only [ok_bind]
        rw [hk2, hk]
        have em : maskUnrank (k + 1) 0 idx = false :: maskUnrank k 0 idx := by
          rw [maskUnrank_succ, if_neg (by omega : ¬ ((0 : Nat) > 0))]
        rw [em]
        rfl
      | rr + 1 =>
        rw [if_pos (by omega : rr + 1 > 0)]
        by_cases hforce : rr + 1 ≥ NN - i
        · have heq : rr + 1 = NN - i := by omega
          rw [if_pos hforce, show rr + 1 - 1 = rr from rfl,
            ih (i + 1) rr idx (by omega) (by omega) (by omega) (by omega) (by omega)]
          simp only [ok_bind]
          rw [hk2, hk]
          have em : maskUnrank (k + 1) (rr + 1) idx = true :: maskUnrank k rr idx := by
            rw [maskUnrank_succ_pos, if_pos (Or.inl (by omega : rr + 1 ≥ k + 1))]
          rw [em]
          rfl
        · have hrk : rr + 1 ≤ k := by omega
          have hble : Nat.choose k rr ≤ Nat.choose NN CC := by
            apply choose_le_of (show rr ≤ CC by omega) hCN
            omega
          rw [if_neg hforce, hk3,
            show rr + 1 - 1 = rr from rfl,
            chooseGet_exact N2 M2 k rr (by omega) (by omega) (by omega) (by omega),
            ok_bind]
          by_cases hidx : idx < Nat.choose k rr
          · rw [if_pos hidx,
              ih (i + 1) rr idx (by omega) (by omega) (by omega) (by omega) (by omega)]
            simp only [ok_bind]
            rw [hk2, hk]
            have em : maskUnrank (k + 1) (rr + 1) idx = true :: maskUnrank k rr idx := by
              rw [maskUnrank_succ_pos, if_pos (Or.inr hidx)]
            rw [em]
            rfl
          · rw [if_neg hidx,
              ih (i + 1) (rr + 1) (idx - Nat.choose k rr) (by omega) (by omega)
                (by omega) (by omega) (by omega)]
            simp only [ok_bind]
            rw [hk2, hk]
            have em : maskUnrank (k + 1) (rr + 1) idx =
                false :: maskUnrank k (rr + 1) (idx - Nat.choose k rr) := by
              rw [maskUnrank_succ_pos, if_neg (by push_neg; exact ⟨by omega, by omega⟩)]
            rw [em]
            rfl

theorem icGetAux_ok [DecidableEq α] (N2 M2 : Nat) (v : α) (NN : Nat) (hN2 : NN ≤ N2) :
    ∀ (arr : List (Option α)) (i remain idx : Nat),
      i + countNone arr = NN → remain ≤ NN - i → remain ≤ M2 →
      ∃ out, icGetAux N2 M2 v NN arr i remain idx = .ok (out, 0) ∧
        countNone out + remain = countNone arr := by
  intro arr
  induction arr with
  | nil =>
    intro i remain idx h1 h2 _
    rw [countNone_nil] at h1
    have hr0 : remain = 0 := by omega
    subst hr0
    exact ⟨[], rfl, rfl⟩
  | cons o rest ih =>
    intro i remain idx h1 h2 h3
    cases o with
    | some x =>
      rw [countNone_cons_some] at h1
      obtain ⟨out, hout, hcnt⟩ := ih i remain idx h1 h2 h3
      refine ⟨some x :: out, ?_, ?_⟩
      · rw [icGetAux_cons_some, hout]
        rfl
      · rw [countNone_cons_some, countNone_cons_some]
        exact hcnt
    | none =>
      rw [countNone_cons_none] at h1
      have hiNN : i < NN := by omega
      rw [countNone_cons_none]
      match remain with
      | 0 =>
        obtain ⟨out, hout, hcnt⟩ := ih (i + 1) 0 idx (by omega) (by omega) (by omega)
        refine ⟨none :: out, ?_, ?_⟩
        · rw [icGetAux_cons_none, if_neg (by omega : ¬ ((0 : Nat) > 0)), hout]
          rfl
        · rw [countNone_cons_none]
          omega
      | rr + 1 =>
        by_cases hforce : rr + 1 ≥ NN - i
        · obtain ⟨out, hout, hcnt⟩ := ih (i + 1) rr idx (by omega) (by omega) (by omega)
          refine ⟨some v :: out, ?_, ?_⟩
          · rw [icGetAux_cons_none, if_pos (by omega : rr + 1 > 0), if_pos hforce,
              show rr + 1 - 1 = rr from rfl, hout]
            rfl
          · rw [countNone_cons_some]
            omega
        · have hk1 : 1 ≤ NN - i - 1 := by omega
          obtain ⟨c, hc⟩ := chooseGet_ok N2 M2 (NN - i - 1) rr hk1
            (by omega) (by omega)
          by_cases hidx : idx < c
          · obtain ⟨out, hout, hcnt⟩ := ih (i + 1) rr idx (by omega) (by omega) (by omega)
            refine ⟨some v :: out, ?_, ?_⟩
            · rw [icGetAux_cons_none, if_pos (by omega : rr + 1 > 0), if_neg hforce,
                show rr + 1 - 1 = rr from rfl, hc, ok_bind, if_pos hidx, hout]
              rfl
            · rw [countNone_cons_some]
              omega
          · obtain ⟨out, hout, hcnt⟩ := ih (i + 1) (rr + 1) (idx - c)
              (by omega) (by omega) (by omega)
            refine ⟨none :: out, ?_, ?_⟩
            · rw [icGetAux_cons_none, if_pos (by omega : rr + 1 > 0), if_neg hforce,
                show rr + 1 - 1 = rr from rfl, hc, ok_bind, if_neg hidx, hout]
              rfl
            · rw [countNone_cons_none]
              omega

/-! Lemmas about the multiset decomposition. -/

theorem filter_ne_length [DecidableEq α] (v : α) :
    ∀ l : List α, (l.filter (fun x => x != v)).length + l.count v = l.length := by
  intro l
  induction l with
  | nil => rfl
  | cons x xs ih =>
    by_cases hx : x = v
    · rw [List.filter_cons, if_neg (by simp [hx]), hx, List.count_cons_self,
        List.length_cons]
      omega
    · rw [List.filter_cons, if_pos (by simpa using hx),
        List.count_cons_of_ne (Ne.symm hx), List.length_cons, List.length_cons]
      omega

theorem count_filter_ne [DecidableEq α] (v w : α) (hw : w ≠ v) :
    ∀ l : List α, (l.filter (fun x => x != v)).count w = l.count w := by
  intro l
  induction l with
  | nil => rfl
  | cons x xs ih =>
    by_cases hx : x = v
    · rw [List.filter_cons, if_neg (by simp [hx]), ih, hx,
        List.count_cons_of_ne hw]
    · rw [List.filter_cons, if_pos (by simpa using hx)]
      by_cases hwx : w = x
      · have ih2 := ih
        rw [hwx] at ih2
        rw [hwx, List.count_cons_self, List.count_cons_self, ih2]
      · rw [List.count_cons_of_ne hwx, List.count_cons_of_ne hwx, ih]

theorem micAux_congr [DecidableEq α] :
    ∀ (f1 : Nat) (l : List α) (f2 : Nat), l.length ≤ f1 → l.length ≤ f2 →
      micAux f1 l = micAux f2 l := by
  intro f1
  induction f1 with
  | zero =>
    intro l f2 h1 _
    have hnil : l = [] := List.eq_nil_of_length_eq_zero (by omega)
    subst hnil
    cases f2 <;> rfl
  | succ f1 ih =>
    intro l f2 h1 h2
    match l with
    | [] => cases f2 <;> rfl
    | v :: rest =>
      match f2 with
      | g + 1 =>
        show ItemCount.mk v (rest.length + 1) (rest.count v + 1) ::
            micAux f1 (rest.filter (fun x => x != v)) =
          ItemCount.mk v (rest.length + 1) (rest.count v + 1) ::
            micAux g (rest.filter (fun x => x != v))
        have hf : (rest.filter (fun x => x != v)).length ≤ rest.length :=
          List.length_filter_le _ _
        rw [ih (rest.filter (fun x => x != v)) g (by simp at h1; omega)
          (by simp at h2; omega)]

theorem makeItemCounts_nil [DecidableEq α] : makeItemCounts ([] : List α) = [] := rfl

theorem makeItemCounts_cons [DecidableEq α] (v : α) (rest : List α) :
    makeItemCounts (v :: rest) =
      ItemCount.mk v (rest.length + 1) (rest.count v + 1) ::
        makeItemCounts (rest.filter (fun x => x != v)) := by
  show micAux ((v :: rest).length) (v :: rest) = _
  rw [show (v :: rest).length = rest.length + 1 from rfl]
  show ItemCount.mk v (rest.length + 1) (rest.count v + 1) ::
      micAux rest.length (rest.filter (fun x => x != v)) = _
  rw [micAux_congr rest.length (rest.filter (fun x => x != v))
    (rest.filter (fun x => x != v)).length (List.length_filter_le _ _) le_rfl]
  rfl

theorem sumCounts_micAux [DecidableEq α] :
    ∀ (fuel : Nat) (l : List α), l.length ≤ fuel →
      sumCounts (micAux fuel l) = l.length := by
  intro fuel
  induction fuel with
  | zero =>
    intro l h
    have hnil : l = [] := List.eq_nil_of_length_eq_zero (by omega)
    subst hnil
    rfl
  | succ fuel ih =>
    intro l h
    match l with
    | [] => rfl
    | v :: rest =>
      show sumCounts (ItemCount.mk v (rest.length + 1) (rest.count v + 1) ::
        micAux fuel (rest.filter (fun x => x != v))) = (v :: rest).length
      have hf : (rest.filter (fun x => x != v)).length ≤ fuel :=
        le_trans (List.length_filter_le _ _) (by simp at h; omega)
      have hc := filter_ne_length v rest
      show rest.count v + 1 + sumCounts (micAux fuel (rest.filter (fun x => x != v))) =
        (v :: rest).length
      rw [ih (rest.filter (fun x => x != v)) hf, List.length_cons]
      omega

theorem sumCounts_makeItemCounts [DecidableEq α] (l : List α) :
    sumCounts (makeItemCounts l) = l.length :=
  sumCounts_micAux l.length l le_rfl

theorem micAux_count [DecidableEq α] :
    ∀ (fuel : Nat) (l : List α), l.length ≤ fuel →
      ∀ ic ∈ micAux fuel l, ic.count = l.count ic.val ∧ ic.val ∈ l := by
  intro fuel
  induction fuel with
  | zero =>
    intro l h ic hic
    have hnil : l = [] := List.eq_nil_of_length_eq_zero (by omega)
    subst hnil
    simp [micAux] at hic
  | succ fuel ih =>
    intro l h ic hic
    match l with
    | [] => simp [micAux] at hic
    | v :: rest =>
      have hmem : ic ∈ ItemCount.mk v (rest.length + 1) (rest.count v + 1) ::
          micAux fuel (rest.filter (fun x => x != v)) := hic
      have hf : (rest.filter (fun x => x != v)).length ≤ fuel :=
        le_trans (List.length_filter_le _ _) (by simp at h; omega)
      rcases List.mem_cons.mp hmem with hhd | htl
      · subst hhd
        constructor
        · show rest.count v + 1 = (v :: rest).count v
          rw [List.count_cons_self]
        · exact List.mem_cons_self _ _
      · obtain ⟨hcnt, hval⟩ := ih (rest.filter (fun x => x != v)) hf ic htl
        have hne : ic.val ≠ v := by
          have := List.of_mem_filter hval
          simpa using this
        refine ⟨?_, ?_⟩
        · rw [hcnt, count_filter_ne v ic.val hne rest, List.count_cons_of_ne hne]
        · exact List.mem_cons_of_mem v (List.mem_of_mem_filter hval)

theorem micAux_covers [DecidableEq α] :
    ∀ (fuel : Nat) (l : List α), l.length ≤ fuel →
      ∀ x ∈ l, ∃ ic ∈ micAux fuel l, ic.val = x := by
  intro fuel
  induction fuel with
  | zero =>
    intro l h x hx
    have hnil : l = [] := List.eq_nil_of_length_eq_zero (by omega)
    subst hnil
    simp at hx
  | succ fuel ih =>
    intro l h x hx
    match l with
    | [] => simp at hx
    | v :: rest =>
      have hf : (rest.filter (fun x => x != v)).length ≤ fuel :=
        le_trans (List.length_filter_le _ _) (by simp at h; omega)
      by_cases hxv : x = v
      · exact ⟨ItemCount.mk v (rest.length + 1) (rest.count v + 1),
          List.mem_cons_self _ _, hxv.symm⟩
      · have hxr : x ∈ rest := by
          rcases List.mem_cons.mp hx with h | h
          · exact absurd h hxv
          · exact h
        have hxf : x ∈ rest.filter (fun y => y != v) :=
          List.mem_filter.mpr ⟨hxr, by simpa using hxv⟩
        obtain ⟨ic, hmem, hval⟩ := ih (rest.filter (fun y => y != v)) hf x hxf
        exact ⟨ic, List.mem_cons_of_mem _ hmem, hval⟩

theorem count_le_maxCounts :
    ∀ (ics : List (ItemCount α)), ∀ ic ∈ ics, ic.count ≤ maxCounts ics := by
  intro ics
  induction ics with
  | nil => intro ic h; simp at h
  | cons hd tl ih =>
    intro ic h
    rcases List.mem_cons.mp h with hh | ht
    · subst hh
      show ic.count ≤ max ic.count (maxCounts tl)
      exact le_max_left _ _
    · show ic.count ≤ max hd.count (maxCounts tl)
      exact le_trans (ih ic ht) (le_max_right _ _)

theorem micAux_good [DecidableEq α] :
    ∀ (fuel : Nat) (l : List α) (N2 M2 : Nat), l.length ≤ fuel → l.length ≤ N2 →
      (∀ ic ∈ micAux fuel l, ic.count ≤ M2) →
      icsGood N2 M2 (micAux fuel l) := by
  intro fuel
  induction fuel with
  | zero =>
    intro l N2 M2 h _ _
    have hnil : l = [] := List.eq_nil_of_length_eq_zero (by omega)
    subst hnil
    trivial
  | succ fuel ih =>
    intro l N2 M2 h hN2 hM2
    match l with
    | [] => trivial
    | v :: rest =>
      have hf : (rest.filter (fun x => x != v)).length ≤ fuel :=
        le_trans (List.length_filter_le _ _) (by simp at h; omega)
      have hmic : micAux (fuel + 1) (v :: rest) =
          ItemCount.mk v (rest.length + 1) (rest.count v + 1) ::
            micAux fuel (rest.filter (fun x => x != v)) := rfl
      rw [hmic] at hM2 ⊢
      have hlen := filter_ne_length v rest
      refine ⟨show 1 ≤ rest.count v + 1 by omega, ?_, ?_, ?_, ?_, ?_⟩
      · show rest.length + 1 = rest.count v + 1 + sumCounts (micAux fuel _)
        rw [sumCounts_micAux _ _ hf]
        omega
      · intro ic2 h2
        obtain ⟨_, hval⟩ := micAux_count fuel _ hf ic2 h2
        have := List.of_mem_filter hval
        simp only [bne_iff_ne, ne_eq] at this
        exact fun hv => this (by rw [← hv])
      · show rest.length + 1 ≤ N2
        simpa using hN2
      · exact hM2 _ (List.mem_cons_self _ _)
      · have hN2b : rest.length + 1 ≤ N2 := by simpa using hN2
        exact ih (rest.filter (fun x => x != v)) N2 M2 hf
          (le_trans (List.length_filter_le _ _) (by omega))
          (fun ic hic => hM2 ic (List.mem_cons_of_mem _ hic))

theorem makeItemCounts_good [DecidableEq α] (l : List α) :
    icsGood l.length (maxCounts (makeItemCounts l)) (makeItemCounts l) :=
  micAux_good l.length l l.length (maxCounts (makeItemCounts l)) le_rfl le_rfl
    (count_le_maxCounts _)

theorem icsGood_choose_pos {N2 M2 : Nat} :
    ∀ ics : List (ItemCount α), icsGood N2 M2 ics →
      ∀ ic ∈ ics, 0 < Nat.choose ic.remain ic.count := by
  intro ics
  induction ics with
  | nil => intro _ ic h; simp at h
  | cons hd tl ih =>
    intro hgood ic h
    obtain ⟨h1, h2, _, _, _, htl⟩ := hgood
    rcases List.mem_cons.mp h with hh | ht
    · subst hh
      exact Nat.choose_pos (by omega)
    · exact ih htl ic ht

theorem choose_le_trueProdIcs {N2 M2 : Nat} (ics : List (ItemCount α))
    (hgood : icsGood N2 M2 ics) :
    ∀ ic ∈ ics, Nat.choose ic.remain ic.count ≤ trueProdIcs ics := by
  intro ic hic
  have hpos : ∀ x ∈ ics.map (fun ic => Nat.choose ic.remain ic.count), 1 ≤ x := by
    intro x hx
    obtain ⟨ic2, hm, he⟩ := List.mem_map.mp hx
    have := icsGood_choose_pos ics hgood ic2 hm
    omega
  exact List.single_le_prod hpos _ (List.mem_map.mpr ⟨ic, hic, rfl⟩)

theorem icSize_eq_choose (ic : ItemCount α)
    (h : Nat.choose ic.remain ic.count < WORD) :
    icSize ic = Nat.choose ic.remain ic.count := by
  rw [icSize, chooseMetaFunc_eq, Nat.mod_eq_of_lt h]

theorem prodSizes_eq_trueProdIcs :
    ∀ ics : List (ItemCount α),
      (∀ ic ∈ ics, Nat.choose ic.remain ic.count < WORD) →
      prodSizes ics = trueProdIcs ics := by
  intro ics
  induction ics with
  | nil => intro _; rfl
  | cons hd tl ih =>
    intro h
    have e1 : prodSizes (hd :: tl) = icSize hd * prodSizes tl := by
      simp [prodSizes]
    have e2 : trueProdIcs (hd :: tl) =
        Nat.choose hd.remain hd.count * trueProdIcs tl := by
      simp [trueProdIcs]
    rw [e1, e2, icSize_eq_choose hd (h hd (List.mem_cons_self _ _)),
      ih (fun ic hic => h ic (List.mem_cons_of_mem _ hic))]

/-! Composition of the ItemCount pack: PermutationImpl loops. -/

theorem permIndexGo_cons [DecidableEq α] (N2 M2 : Nat) (ic : ItemCount α)
    (rest : List (ItemCount α)) (buf : List α) (index base : Nat) :
    permIndexGo N2 M2 (ic :: rest) buf index base =
      (do
        let p ← icIndexAux N2 M2 ic.val buf ic.count
        permIndexGo N2 M2 rest p.2 (index + base * p.1) (base * icSize ic)) := rfl

theorem permGetAux_cons [DecidableEq α] (N2 M2 : Nat) (ic : ItemCount α)
    (rest : List (ItemCount α)) (index : Nat) (arr : List (Option α)) :
    permGetAux N2 M2 (ic :: rest) index arr =
      (do
        let p ← icGetAux N2 M2 ic.val ic.remain arr 0 ic.count (index % icSize ic)
        permGetAux N2 M2 rest (index / icSize ic) p.1) := rfl

theorem sumCounts_cons (ic : ItemCount α) (rest : List (ItemCount α)) :
    sumCounts (ic :: rest) = ic.count + sumCounts rest := by
  simp [sumCounts]

theorem count_true_add_count_false :
    ∀ mask : List Bool, mask.count true + mask.count false = mask.length := by
  intro mask
  induction mask with
  | nil => rfl
  | cons b bs ih =>
    cases b with
    | true =>
      rw [List.count_cons_self, List.count_cons_of_ne (by simp), List.length_cons]
      omega
    | false =>
      rw [List.count_cons_self, List.count_cons_of_ne (by simp), List.length_cons]
      omega

theorem permIndexGo_ok [DecidableEq α] (N2 M2 : Nat) :
    ∀ (ics : List (ItemCount α)) (buf : List α) (index base : Nat),
      icsGood N2 M2 ics → buf.length = sumCounts ics →
      (∀ ic ∈ ics, buf.count ic.val = ic.count) →
      ∃ r, permIndexGo N2 M2 ics buf index base = .ok r := by
  intro ics
  induction ics with
  | nil => intro buf index base _ _ _; exact ⟨index, rfl⟩
  | cons ic rest ih =>
    intro buf index base hgood hlen hcnt
    obtain ⟨h1, h2, h3, h4, h5, h6⟩ := hgood
    have hheadcnt : buf.count ic.val = ic.count := hcnt ic (List.mem_cons_self _ _)
    have hlen2 : buf.length ≤ N2 := by
      rw [hlen, sumCounts_cons]
      omega
    obtain ⟨r0, hr0⟩ := icIndexAux_ok N2 M2 ic.val buf ic.count hheadcnt h5 hlen2
    have hfl := filter_ne_length ic.val buf
    have hlen3 : (buf.filter (fun x => x != ic.val)).length = sumCounts rest := by
      rw [hlen, sumCounts_cons] at hfl
      omega
    have hcnt3 : ∀ ic2 ∈ rest, (buf.filter (fun x => x != ic.val)).count ic2.val =
        ic2.count := by
      intro ic2 hic2
      rw [count_filter_ne ic.val ic2.val (Ne.symm (h3 ic2 hic2)),
        hcnt ic2 (List.mem_cons_of_mem _ hic2)]
    obtain ⟨r, hr⟩ := ih _ (index + base * r0) (base * icSize ic) h6 hlen3 hcnt3
    refine ⟨r, ?_⟩
    rw [permIndexGo_cons, hr0, ok_bind]
    exact hr

theorem permGetAux_ok [DecidableEq α] (N2 M2 : Nat) :
    ∀ (ics : List (ItemCount α)) (idx : Nat) (arr : List (Option α)),
      icsGood N2 M2 ics → countNone arr = sumCounts ics →
      ∃ out, permGetAux N2 M2 ics idx arr = .ok out := by
  intro ics
  induction ics with
  | nil => intro idx arr _ _; exact ⟨arr, rfl⟩
  | cons ic rest ih =>
    intro idx arr hgood harr
    obtain ⟨h1, h2, h3, h4, h5, h6⟩ := hgood
    have hnn : 0 + countNone arr = ic.remain := by
      rw [harr, sumCounts_cons]
      omega
    obtain ⟨out0, hout0, hcnt0⟩ := icGetAux_ok N2 M2 ic.val ic.remain h4 arr 0
      ic.count (idx % icSize ic) hnn (by omega) h5
    have harr1 : countNone out0 = sumCounts rest := by
      rw [harr, sumCounts_cons] at hcnt0
      omega
    obtain ⟨out, hout⟩ := ih (idx / icSize ic) out0 h6 harr1
    refine ⟨out, ?_⟩
    rw [permGetAux_cons, hout0, ok_bind]
    exact hout

theorem trueProdIcs_cons (ic : ItemCount α) (rest : List (ItemCount α)) :
    trueProdIcs (ic :: rest) =
      Nat.choose ic.remain ic.count * trueProdIcs rest := by
  simp [trueProdIcs]

/-- Unranking an index below the size of the pack fills the unfilled slots
with a value sequence whose ranking recovers the index: the core of the
round-trip law, proved for every suffix of the pack and every partially
filled buffer. -/
theorem permGetAux_roundtrip [DecidableEq α] (N2 M2 : Nat) :
    ∀ (ics : List (ItemCount α)) (arr : List (Option α)) (i : Nat),
      icsGood N2 M2 ics →
      (∀ ic ∈ ics, Nat.choose ic.remain ic.count < WORD) →
      countNone arr = sumCounts ics →
      i < trueProdIcs ics →
      ∃ sub : List α,
        permGetAux N2 M2 ics i arr = .ok (fillSub arr sub) ∧
        sub.length = sumCounts ics ∧
        (∀ ic ∈ ics, sub.count ic.val = ic.count) ∧
        (∀ x, (∀ ic ∈ ics, x ≠ ic.val) → sub.count x = 0) ∧
        (∀ index base, permIndexGo N2 M2 ics sub index base =
          .ok (index + base * i)) := by
  intro ics
  induction ics with
  | nil =>
    intro arr i _ _ _ hi
    have hi0 : i = 0 := by
      have : trueProdIcs ([] : List (ItemCount α)) = 1 := rfl
      omega
    subst hi0
    refine ⟨[], ?_, rfl, by simp, by intro x _; exact List.count_nil x, ?_⟩
    · rw [fillSub_nil]
      rfl
    · intro index base
      show Except.ok index = Except.ok (index + base * 0)
      rw [Nat.mul_zero, Nat.add_zero]
  | cons ic rest ih =>
    intro arr i hgood hw harr hi
    obtain ⟨h1, h2, h3, h4, h5, h6⟩ := hgood
    have hwHead : Nat.choose ic.remain ic.count < WORD :=
      hw ic (List.mem_cons_self _ _)
    have hwRest : ∀ ic2 ∈ rest, Nat.choose ic2.remain ic2.count < WORD :=
      fun ic2 hic2 => hw ic2 (List.mem_cons_of_mem _ hic2)
    have hc0n0 : ic.count ≤ ic.remain := by omega
    have hS0pos : 0 < Nat.choose ic.remain ic.count := Nat.choose_pos hc0n0
    have hicSize : icSize ic = Nat.choose ic.remain ic.count :=
      icSize_eq_choose ic hwHead
    have harr0 : countNone arr = ic.remain := by
      rw [harr, sumCounts_cons]
      omega
    have hidx0 : i % Nat.choose ic.remain ic.count < Nat.choose ic.remain ic.count :=
      Nat.mod_lt i hS0pos
    have hmasklen : (maskUnrank ic.remain ic.count
        (i % Nat.choose ic.remain ic.count)).length = ic.remain :=
      maskUnrank_length _ _ _
    have hmaskcnt : (maskUnrank ic.remain ic.count
        (i % Nat.choose ic.remain ic.count)).count true = ic.count :=
      maskUnrank_count_true _ _ _ hc0n0
    have hmaskfalse : (maskUnrank ic.remain ic.count
        (i % Nat.choose ic.remain ic.count)).count false = ic.remain - ic.count := by
      have := count_true_add_count_false
        (maskUnrank ic.remain ic.count (i % Nat.choose ic.remain ic.count))
      rw [hmasklen, hmaskcnt] at this
      omega
    have hG1 := icGetAux_exact N2 M2 ic.val ic.remain ic.count h4 h5 hc0n0 hwHead
      arr 0 ic.count (i % Nat.choose ic.remain ic.count)
      (by omega) (by omega) le_rfl (by omega) (by omega)
    rw [Nat.sub_zero] at hG1
    have hcn1 : countNone (fillMask ic.val arr
        (maskUnrank ic.remain ic.count (i % Nat.choose ic.remain ic.count))) =
        sumCounts rest := by
      have := countNone_fillMask ic.val arr
        (maskUnrank ic.remain ic.count (i % Nat.choose ic.remain ic.count))
        (by rw [hmasklen, harr0])
      rw [hmaskcnt, harr, sumCounts_cons] at this
      omega
    rw [trueProdIcs_cons] at hi
    have hi1 : i / Nat.choose ic.remain ic.count < trueProdIcs rest := by
      rw [Nat.div_lt_iff_lt_mul hS0pos, Nat.mul_comm]
      exact hi
    obtain ⟨sub1, hget1, hlen1, hcnt1, hzero1, hgo1⟩ :=
      ih (fillMask ic.val arr
        (maskUnrank ic.remain ic.count (i % Nat.choose ic.remain ic.count)))
        (i / Nat.choose ic.remain ic.count) h6 hwRest hcn1 hi1
    have hlen1' : sub1.length = ic.remain - ic.count := by
      rw [hlen1]
      omega
    have hcv1 : sub1.count ic.val = 0 := hzero1 ic.val (fun ic2 h => h3 ic2 h)
    have hne1 : ∀ s ∈ sub1, s ≠ ic.val := by
      intro s hs he
      have : 0 < sub1.count ic.val := List.count_pos_iff_mem.mpr (he ▸ hs)
      omega
    refine ⟨interleave ic.val
      (maskUnrank ic.remain ic.count (i % Nat.choose ic.remain ic.count)) sub1,
      ?_, ?_, ?_, ?_, ?_⟩
    · rw [permGetAux_cons, hicSize, hG1, ok_bind, hget1,
        fillSub_interleave ic.val arr _ sub1 (by rw [hmasklen, harr0])
          (by rw [hmaskfalse, hlen1'])]
    · rw [interleave_length ic.val _ sub1 (by rw [hmaskfalse, hlen1']),
        hmasklen, sumCounts_cons]
      omega
    · intro ic2 hic2
      rcases List.mem_cons.mp hic2 with hh | ht
      · rw [hh, interleave_count ic.val _ sub1 ic.val (by rw [hmaskfalse, hlen1']),
          if_pos rfl, hmaskcnt, hcv1]
        omega
      · rw [interleave_count ic.val _ sub1 ic2.val (by rw [hmaskfalse, hlen1']),
          if_neg (Ne.symm (h3 ic2 ht)), hcnt1 ic2 ht]
        omega
    · intro x hx
      rw [interleave_count ic.val _ sub1 x (by rw [hmaskfalse, hlen1']),
        if_neg (hx ic (List.mem_cons_self _ _)),
        hzero1 x (fun ic2 h => hx ic2 (List.mem_cons_of_mem _ h))]
    · intro index base
      have hG2 := icIndexAux_exact N2 M2 ic.val ic.remain ic.count h4 h5 hc0n0 hwHead
        (interleave ic.val
          (maskUnrank ic.remain ic.count (i % Nat.choose ic.remain ic.count)) sub1)
        ic.count
        (by rw [interleave_count ic.val _ sub1 ic.val (by rw [hmaskfalse, hlen1']),
              if_pos rfl, hmaskcnt, hcv1]
            omega)
        le_rfl
        (by rw [interleave_length ic.val _ sub1 (by rw [hmaskfalse, hlen1']),
              hmasklen])
      rw [permIndexGo_cons, hG2, ok_bind,
        interleave_map_beq ic.val _ sub1 (by rw [hmaskfalse, hlen1']) hne1,
        interleave_filter ic.val _ sub1 (by rw [hmaskfalse, hlen1']) hne1,
        maskRank_maskUnrank ic.remain ic.count (i % Nat.choose ic.remain ic.count)
          hc0n0 hidx0,
        hicSize, hgo1]
      have harith : index + base * (i % Nat.choose ic.remain ic.count) +
          base * Nat.choose ic.remain ic.count *
            (i / Nat.choose ic.remain ic.count) = index + base * i := by
        conv_rhs => rw [← Nat.div_add_mod i (Nat.choose ic.remain ic.count)]
        ring
      rw [harith]

/-- Ranking a buffer whose per-symbol counts match the pack produces an
index below the size of the pack, and unranking that index reproduces the
buffer: the other direction of the round-trip law. -/
theorem permIndexGo_roundtrip [DecidableEq α] (N2 M2 : Nat) :
    ∀ (ics : List (ItemCount α)) (arr : List (Option α)) (buf : List α),
      icsGood N2 M2 ics →
      (∀ ic ∈ ics, Nat.choose ic.remain ic.count < WORD) →
      countNone arr = sumCounts ics →
      buf.length = sumCounts ics →
      (∀ ic ∈ ics, buf.count ic.val = ic.count) →
      ∃ r, (∀ index base, permIndexGo N2 M2 ics buf index base =
              .ok (index + base * r)) ∧
           r < trueProdIcs ics ∧
           permGetAux N2 M2 ics r arr = .ok (fillSub arr buf) := by
  intro ics
  induction ics with
  | nil =>
    intro arr buf _ _ _ hlen _
    have hbuf : buf = [] := List.eq_nil_of_length_eq_zero (by
      rw [hlen]; rfl)
    subst hbuf
    refine ⟨0, ?_, Nat.zero_lt_one, ?_⟩
    · intro index base
      show Except.ok index = Except.ok (index + base * 0)
      rw [Nat.mul_zero, Nat.add_zero]
    · rw [fillSub_nil]
      rfl
  | cons ic rest ih =>
    intro arr buf hgood hw harr hlen hcnt
    obtain ⟨h1, h2, h3, h4, h5, h6⟩ := hgood
    have hwHead : Nat.choose ic.remain ic.count < WORD :=
      hw ic (List.mem_cons_self _ _)
    have hwRest : ∀ ic2 ∈ rest, Nat.choose ic2.remain ic2.count < WORD :=
      fun ic2 hic2 => hw ic2 (List.mem_cons_of_mem _ hic2)
    have hc0n0 : ic.count ≤ ic.remain := by omega
    have hS0pos : 0 < Nat.choose ic.remain ic.count := Nat.choose_pos hc0n0
    have hicSize : icSize ic = Nat.choose ic.remain ic.count :=
      icSize_eq_choose ic hwHead
    have hheadcnt : buf.count ic.val = ic.count := hcnt ic (List.mem_cons_self _ _)
    have hbuflen : buf.length = ic.remain := by
      rw [hlen, sumCounts_cons]
      omega
    have harr0 : countNone arr = ic.remain := by
      rw [harr, sumCounts_cons]
      omega
    have hmaskcnt : (buf.map (fun x => x == ic.val)).count true = ic.count := by
      rw [count_true_map_beq, hheadcnt]
    have hmasklen : (buf.map (fun x => x == ic.val)).length = ic.remain := by
      rw [List.length_map, hbuflen]
    have hr0lt : maskRank (buf.map (fun x => x == ic.val)) ic.count <
        Nat.choose ic.remain ic.count := by
      have := maskRank_lt (buf.map (fun x => x == ic.val)) ic.count hmaskcnt
      rw [hmasklen] at this
      exact this
    have hunrank : maskUnrank ic.remain ic.count
        (maskRank (buf.map (fun x => x == ic.val)) ic.count) =
        buf.map (fun x => x == ic.val) := by
      have := maskUnrank_maskRank (buf.map (fun x => x == ic.val)) ic.count hmaskcnt
      rw [hmasklen] at this
      exact this
    have hG2 := icIndexAux_exact N2 M2 ic.val ic.remain ic.count h4 h5 hc0n0 hwHead
      buf ic.count hheadcnt le_rfl (by omega)
    have hfl := filter_ne_length ic.val buf
    have hlen1 : (buf.filter (fun x => x != ic.val)).length = sumCounts rest := by
      rw [hlen, sumCounts_cons] at hfl
      omega
    have hcnt1 : ∀ ic2 ∈ rest, (buf.filter (fun x => x != ic.val)).count ic2.val =
        ic2.count := by
      intro ic2 hic2
      rw [count_filter_ne ic.val ic2.val (Ne.symm (h3 ic2 hic2)),
        hcnt ic2 (List.mem_cons_of_mem _ hic2)]
    have hcn1 : countNone (fillMask ic.val arr (buf.map (fun x => x == ic.val))) =
        sumCounts rest := by
      have := countNone_fillMask ic.val arr (buf.map (fun x => x == ic.val))
        (by rw [hmasklen, harr0])
      rw [hmaskcnt, harr, sumCounts_cons] at this
      omega
    obtain ⟨r1, hgo1, hr1lt, hget1⟩ :=
      ih (fillMask ic.val arr (buf.map (fun x => x == ic.val)))
        (buf.filter (fun x => x != ic.val)) h6 hwRest hcn1 hlen1 hcnt1
    refine ⟨maskRank (buf.map (fun x => x == ic.val)) ic.count +
      Nat.choose ic.remain ic.count * r1, ?_, ?_, ?_⟩
    · intro index base
      rw [permIndexGo_cons, hG2, ok_bind, hicSize, hgo1]
      have harith : index + base * maskRank (buf.map (fun x => x == ic.val)) ic.count +
          base * Nat.choose ic.remain ic.count * r1 =
          index + base * (maskRank (buf.map (fun x => x == ic.val)) ic.count +
            Nat.choose ic.remain ic.count * r1) := by
        ring
      rw [harith]
    · rw [trueProdIcs_cons]
      have hms : Nat.choose ic.remain ic.count * (r1 + 1) =
          Nat.choose ic.remain ic.count * r1 + Nat.choose ic.remain ic.count :=
        Nat.mul_succ _ _
      have hle : Nat.choose ic.remain ic.count * (r1 + 1) ≤
          Nat.choose ic.remain ic.count * trueProdIcs rest :=
        Nat.mul_le_mul_left _ (by omega)
      omega
    · have hmod : (maskRank (buf.map (fun x => x == ic.val)) ic.count +
          Nat.choose ic.remain ic.count * r1) % Nat.choose ic.remain ic.count =
          maskRank (buf.map (fun x => x == ic.val)) ic.count := by
        rw [Nat.mul_comm, Nat.add_mul_mod_self_right, Nat.mod_eq_of_lt hr0lt]
      have hdiv : (maskRank (buf.map (fun x => x == ic.val)) ic.count +
          Nat.choose ic.remain ic.count * r1) / Nat.choose ic.remain ic.count =
          r1 := by
        rw [Nat.mul_comm, Nat.add_mul_div_right _ _ hS0pos,
          Nat.div_eq_of_lt hr0lt, Nat.zero_add]
      have hG1 := icGetAux_exact N2 M2 ic.val ic.remain ic.count h4 h5 hc0n0 hwHead
        arr 0 ic.count (maskRank (buf.map (fun x => x == ic.val)) ic.count)
        (by omega) (by omega) le_rfl (by omega) (by omega)
      rw [Nat.sub_zero, hunrank] at hG1
      rw [permGetAux_cons, hicSize, hmod, hdiv, hG1, ok_bind, hget1,
        fillSub_split ic.val arr buf (by rw [hbuflen, harr0])]

/-! Top-level bridge lemmas. -/

theorem permGet_eq [DecidableEq α] [Inhabited α] (vals : List α) (i : Nat) :
    permGet vals i =
      if i ≥ prodSizes (makeItemCounts vals) then .error .getOutOfRange
      else (permGetAux vals.length (maxCounts (makeItemCounts vals))
          (makeItemCounts vals) i (List.replicate vals.length none)).map
        (fun arr => arr.map (fun o => o.getD default)) := rfl

theorem permIndex_eq [DecidableEq α] (vals p : List α) :
    permIndex vals p =
      if p.length ≠ vals.length then .error .invalidInput
      else permIndexImpl vals.length (maxCounts (makeItemCounts vals))
        (makeItemCounts vals) p := rfl

theorem permIndexImpl_eq [DecidableEq α] (N2 M2 : Nat) (ics : List (ItemCount α))
    (tmp : List α) :
    permIndexImpl N2 M2 ics tmp =
      if ics.any (fun ic => !icIsOk ic.val ic.count tmp) then .error .invalidInput
      else permIndexGo N2 M2 ics tmp 0 1 := rfl

theorem ok_map {β γ : Type} (a : β) (f : β → γ) :
    (Except.ok a : Except PermError β).map f = .ok (f a) := rfl

theorem map_some_getD [Inhabited α] :
    ∀ l : List α, (l.map some).map (fun o => o.getD default) = l := by
  intro l
  induction l with
  | nil => rfl
  | cons x xs ih => simp only [List.map_cons, Option.getD_some, ih]

theorem wordBound_of_trueProd [DecidableEq α] (vals : List α)
    (hsz : trueProd vals < WORD) :
    ∀ ic ∈ makeItemCounts vals, Nat.choose ic.remain ic.count < WORD := by
  intro ic hic
  exact lt_of_le_of_lt
    (choose_le_trueProdIcs (makeItemCounts vals) (makeItemCounts_good vals) ic hic)
    hsz

theorem prodSizes_makeItemCounts_eq [DecidableEq α] (vals : List α)
    (hsz : trueProd vals < WORD) :
    prodSizes (makeItemCounts vals) = trueProd vals :=
  prodSizes_eq_trueProdIcs (makeItemCounts vals) (wordBound_of_trueProd vals hsz)

/-- Values whose symbol is covered by no ItemCount do not occur in a buffer
whose length and per-symbol counts match the pack. -/
theorem count_zero_of_not_covered [DecidableEq α] {N2 M2 : Nat} :
    ∀ (ics : List (ItemCount α)) (p : List α), icsGood N2 M2 ics →
      p.length = sumCounts ics →
      (∀ ic ∈ ics, p.count ic.val = ic.count) →
      ∀ x, (∀ ic ∈ ics, x ≠ ic.val) → p.count x = 0 := by
  intro ics
  induction ics with
  | nil =>
    intro p _ hlen _ x _
    have hp : p = [] := List.length_eq_zero.mp (by rw [hlen]; rfl)
    subst hp
    exact List.count_nil x
  | cons ic rest ih =>
    intro p hgood hlen hcnt x hx
    obtain ⟨h1, h2, h3, h4, h5, h6⟩ := hgood
    have hheadcnt : p.count ic.val = ic.count := hcnt ic (List.mem_cons_self _ _)
    have hfl := filter_ne_length ic.val p
    have hlen1 : (p.filter (fun y => y != ic.val)).length = sumCounts rest := by
      rw [hlen, sumCounts_cons] at hfl
      omega
    have hcnt1 : ∀ ic2 ∈ rest, (p.filter (fun y => y != ic.val)).count ic2.val =
        ic2.count := by
      intro ic2 hic2
      rw [count_filter_ne ic.val ic2.val (Ne.symm (h3 ic2 hic2)),
        hcnt ic2 (List.mem_cons_of_mem _ hic2)]
    have := ih (p.filter (fun y => y != ic.val)) h6 hlen1 hcnt1 x
      (fun ic2 h => hx ic2 (List.mem_cons_of_mem _ h))
    rw [count_filter_ne ic.val x (hx ic (List.mem_cons_self _ _))] at this
    exact this

/-- Sequences on which every ItemCount::IsOk check passes are permutations
of the specification. -/
theorem perm_of_isOk_all [DecidableEq α] (vals p : List α)
    (hlen : p.length = vals.length)
    (hcnt : ∀ ic ∈ makeItemCounts vals, p.count ic.val = ic.count) :
    List.Perm p vals := by
  apply List.perm_iff_count.mpr
  intro x
  by_cases hx : ∃ ic ∈ makeItemCounts vals, ic.val = x
  · obtain ⟨ic, hic, hval⟩ := hx
    obtain ⟨hc, _⟩ := micAux_count vals.length vals le_rfl ic hic
    rw [← hval, hcnt ic hic, hc]
  · push_neg at hx
    have hx' : ∀ ic ∈ makeItemCounts vals, x ≠ ic.val :=
      fun ic hic he => hx ic hic he.symm
    have hp0 : p.count x = 0 :=
      count_zero_of_not_covered (makeItemCounts vals) p (makeItemCounts_good vals)
        (by rw [hlen, sumCounts_makeItemCounts]) hcnt x hx'
    have hv0 : vals.count x = 0 := by
      rw [List.count_eq_zero]
      intro hmem
      obtain ⟨ic, hic, hval⟩ := micAux_covers vals.length vals le_rfl x hmem
      exact hx ic hic hval
    rw [hp0, hv0]

/-- Product of the exact per-symbol sizes times the product of the count
factorials telescopes to the factorial of the total count. -/
theorem trueProdIcs_mul_factorials {N2 M2 : Nat} :
    ∀ ics : List (ItemCount α), icsGood N2 M2 ics →
      trueProdIcs ics * ((ics.map (fun ic => ic.count.factorial)).prod) =
        (sumCounts ics).factorial := by
  intro ics
  induction ics with
  | nil => intro _; rfl
  | cons ic rest ih =>
    intro hgood
    obtain ⟨h1, h2, h3, h4, h5, h6⟩ := hgood
    have e1 : ((ic :: rest).map (fun ic => ic.count.factorial)).prod =
        ic.count.factorial * ((rest.map (fun ic => ic.count.factorial)).prod) := by
      simp
    rw [trueProdIcs_cons, sumCounts_cons, e1]
    have e2 : Nat.choose ic.remain ic.count * trueProdIcs rest *
        (ic.count.factorial * (rest.map (fun ic => ic.count.factorial)).prod) =
        Nat.choose ic.remain ic.count * ic.count.factorial *
          (trueProdIcs rest * (rest.map (fun ic => ic.count.factorial)).prod) := by
      ring
    rw [e2, ih h6]
    have hc0n0 : ic.count ≤ ic.remain := by omega
    have hchoose := Nat.choose_mul_factorial_mul_factorial hc0n0
    have hsub : ic.remain - ic.count = sumCounts rest := by omega
    rw [hsub] at hchoose
    have e3 : ic.count + sumCounts rest = ic.remain := by omega
    rw [e3, ← hchoose]

/-! Claim theorems. -/

/-- C1: for every codec built from a non-empty multiset specification whose
exact size product fits a machine word (the condition the construction-time
overflow check is intended to enforce; see the C6 theorem for what happens
without it) and every integer i with 0 <= i < Size(), ranking the unranked
arrangement returns the same integer: c.Index(c[i]) = i. -/
theorem c1_index_get_roundtrip [DecidableEq α] [Inhabited α] (vals : List α)
    (hne : vals ≠ []) (hsz : trueProd vals < WORD) (i : Nat)
    (hi : i < prodSizes (makeItemCounts vals)) :
    ∃ p, permGet vals i = .ok p ∧ permIndex vals p = .ok i := by
  have hw := wordBound_of_trueProd vals hsz
  have hps := prodSizes_makeItemCounts_eq vals hsz
  have hgood := makeItemCounts_good vals
  have harr : countNone (List.replicate vals.length (none : Option α)) =
      sumCounts (makeItemCounts vals) := by
    rw [countNone_replicate, sumCounts_makeItemCounts]
  have hi' : i < trueProdIcs (makeItemCounts vals) := by
    have : i < trueProd vals := by omega
    exact this
  obtain ⟨sub, hget, hsublen, hsubcnt, _, hgo⟩ :=
    permGetAux_roundtrip vals.length (maxCounts (makeItemCounts vals))
      (makeItemCounts vals) (List.replicate vals.length none) i hgood hw harr hi'
  have hsublen' : sub.length = vals.length := by
    rw [hsublen, sumCounts_makeItemCounts]
  refine ⟨sub, ?_, ?_⟩
  · rw [permGet_eq, if_neg (by omega), hget,
      fillSub_replicate vals.length sub hsublen', ok_map, map_some_getD]
  · rw [permIndex_eq, if_neg (by omega : ¬ (sub.length ≠ vals.length)),
      permIndexImpl_eq]
    have hany : ((makeItemCounts vals).any
        (fun ic => !icIsOk ic.val ic.count sub)) = false := by
      rw [List.any_eq_false]
      intro ic hic
      simp [icIsOk, hsubcnt ic hic]
    rw [if_neg (by simp [hany]), hgo 0 1]
    norm_num

/-- Witness for C1 at the concrete specification (A, A, A, B, B, C) of the
source documentation, with i = 10. -/
theorem c1_witness :
    ([0, 0, 0, 1, 1, 2] : List Nat) ≠ [] ∧
    trueProd ([0, 0, 0, 1, 1, 2] : List Nat) < WORD ∧
    10 < prodSizes (makeItemCounts ([0, 0, 0, 1, 1, 2] : List Nat)) ∧
    ∃ p, permGet ([0, 0, 0, 1, 1, 2] : List Nat) 10 = .ok p ∧
      permIndex ([0, 0, 0, 1, 1, 2] : List Nat) p = .ok 10 :=
  ⟨by decide, by decide, by decide,
    c1_index_get_roundtrip [0, 0, 0, 1, 1, 2] (by decide) (by decide) 10 (by decide)⟩

/-- C2: for every codec (with the same size-fits hypothesis as C1) and every
sequence p whose multiset of symbols equals the specification (stated as a
list permutation, which is equivalent to having length N and the per-symbol
counts of the specification), unranking the rank reproduces p exactly. -/
theorem c2_get_index_roundtrip [DecidableEq α] [Inhabited α] (vals p : List α)
    (hsz : trueProd vals < WORD) (hp : List.Perm p vals) :
    ∃ r, permIndex vals p = .ok r ∧ permGet vals r = .ok p := by
  have hw := wordBound_of_trueProd vals hsz
  have hps := prodSizes_makeItemCounts_eq vals hsz
  have hgood := makeItemCounts_good vals
  have hlen : p.length = vals.length := hp.length_eq
  have harr : countNone (List.replicate vals.length (none : Option α)) =
      sumCounts (makeItemCounts vals) := by
    rw [countNone_replicate, sumCounts_makeItemCounts]
  have hcnt : ∀ ic ∈ makeItemCounts vals, p.count ic.val = ic.count := by
    intro ic hic
    obtain ⟨hc, _⟩ := micAux_count vals.length vals le_rfl ic hic
    rw [hp.count_eq ic.val, hc]
  obtain ⟨r, hgo, hrlt, hget⟩ :=
    permIndexGo_roundtrip vals.length (maxCounts (makeItemCounts vals))
      (makeItemCounts vals) (List.replicate vals.length none) p hgood hw harr
      (by rw [hlen, sumCounts_makeItemCounts]) hcnt
  have hrlt' : r < prodSizes (makeItemCounts vals) := by
    rw [hps]
    exact hrlt
  refine ⟨r, ?_, ?_⟩
  · rw [permIndex_eq, if_neg (by omega : ¬ (p.length ≠ vals.length)),
      permIndexImpl_eq]
    have hany : ((makeItemCounts vals).any
        (fun ic => !icIsOk ic.val ic.count p)) = false := by
      rw [List.any_eq_false]
      intro ic hic
      simp [icIsOk, hcnt ic hic]
    rw [if_neg (by simp [hany]), hgo 0 1]
    norm_num
  · rw [permGet_eq, if_neg (by omega), hget,
      fillSub_replicate vals.length p (by rw [hlen]), ok_map, map_some_getD]

/-- Witness for C2 at the documentation example: p = (B, A, A, A, B, C). -/
theorem c2_witness :
    trueProd ([0, 0, 0, 1, 1, 2] : List Nat) < WORD ∧
    List.Perm ([1, 0, 0, 0, 1, 2] : List Nat) [0, 0, 0, 1, 1, 2] ∧
    ∃ r, permIndex ([0, 0, 0, 1, 1, 2] : List Nat) [1, 0, 0, 0, 1, 2] = .ok r ∧
      permGet ([0, 0, 0, 1, 1, 2] : List Nat) r = .ok [1, 0, 0, 0, 1, 2] :=
  ⟨by decide, by decide,
    c2_get_index_roundtrip [0, 0, 0, 1, 1, 2] [1, 0, 0, 0, 1, 2]
      (by decide) (by decide)⟩

/-- C7: Index throws the invalid-input runtime_error when the input length
differs from N and when the per-symbol counts differ from the
specification multiset (equivalently, when the input is not a permutation
of the specification), and on every well-formed permutation it returns an
integer in [0, Size()).  The size-fits hypothesis is the construction-time
condition of C1 and is only needed for the success branch. -/
theorem c7_index_validation [DecidableEq α] (vals p : List α)
    (hsz : trueProd vals < WORD) :
    (p.length ≠ vals.length → permIndex vals p = .error .invalidInput) ∧
    (¬ List.Perm p vals → permIndex vals p = .error .invalidInput) ∧
    (List.Perm p vals →
      ∃ r, permIndex vals p = .ok r ∧ r < prodSizes (makeItemCounts vals)) := by
  have hgood := makeItemCounts_good vals
  have hw := wordBound_of_trueProd vals hsz
  have hps := prodSizes_makeItemCounts_eq vals hsz
  refine ⟨?_, ?_, ?_⟩
  · intro hlen
    rw [permIndex_eq, if_pos hlen]
  · intro hnp
    by_cases hlen : p.length ≠ vals.length
    · rw [permIndex_eq, if_pos hlen]
    · push_neg at hlen
      rw [permIndex_eq, if_neg (by omega : ¬ (p.length ≠ vals.length)),
        permIndexImpl_eq]
      by_cases hany : ((makeItemCounts vals).any
          (fun ic => !icIsOk ic.val ic.count p)) = true
      · rw [if_pos hany]
      · exfalso
        have hany' : ((makeItemCounts vals).any
            (fun ic => !icIsOk ic.val ic.count p)) = false := by
          simpa using hany
        have hcnt : ∀ ic ∈ makeItemCounts vals, p.count ic.val = ic.count := by
          intro ic hic
          have := List.any_eq_false.mp hany' ic hic
          simpa [icIsOk] using this
        exact hnp (perm_of_isOk_all vals p hlen hcnt)
  · intro hp
    have hlen : p.length = vals.length := hp.length_eq
    have hcnt : ∀ ic ∈ makeItemCounts vals, p.count ic.val = ic.count := by
      intro ic hic
      obtain ⟨hc, _⟩ := micAux_count vals.length vals le_rfl ic hic
      rw [hp.count_eq ic.val, hc]
    obtain ⟨r, hgo, hrlt, _⟩ :=
      permIndexGo_roundtrip vals.length (maxCounts (makeItemCounts vals))
        (makeItemCounts vals) (List.replicate vals.length none) p hgood hw
        (by rw [countNone_replicate, sumCounts_makeItemCounts])
        (by rw [hlen, sumCounts_makeItemCounts]) hcnt
    refine ⟨r, ?_, by rw [hps]; exact hrlt⟩
    rw [permIndex_eq, if_neg (by omega : ¬ (p.length ≠ vals.length)),
      permIndexImpl_eq]
    have hany : ((makeItemCounts vals).any
        (fun ic => !icIsOk ic.val ic.count p)) = false := by
      rw [List.any_eq_false]
      intro ic hic
      simp [icIsOk, hcnt ic hic]
    rw [if_neg (by simp [hany]), hgo 0 1]
    norm_num

/-- Witness for C7: a wrong-length input, a wrong-count input and a
well-formed permutation of the documentation specification. -/
theorem c7_witness :
    trueProd ([0, 0, 0, 1, 1, 2] : List Nat) < WORD ∧
    permIndex ([0, 0, 0, 1, 1, 2] : List Nat) [0, 0] = .error .invalidInput ∧
    permIndex ([0, 0, 0, 1, 1, 2] : List Nat) [0, 0, 0, 1, 1, 3] =
      .error .invalidInput ∧
    ∃ r, permIndex ([0, 0, 0, 1, 1, 2] : List Nat) [1, 0, 0, 0, 1, 2] = .ok r ∧
      r < prodSizes (makeItemCounts ([0, 0, 0, 1, 1, 2] : List Nat)) :=
  ⟨by decide,
    (c7_index_validation [0, 0, 0, 1, 1, 2] [0, 0] (by decide)).1 (by decide),
    (c7_index_validation [0, 0, 0, 1, 1, 2] [0, 0, 0, 1, 1, 3] (by decide)).2.1
      (by decide),
    (c7_index_validation [0, 0, 0, 1, 1, 2] [1, 0, 0, 0, 1, 2] (by decide)).2.2
      (by decide)⟩

/-- C10: through the public interface the out-of-range throw of Choose::Get
and its out-of-bounds read at n = 0 are unreachable: Index on an arbitrary
input either succeeds or throws the invalid-input error, operator[] on an
index below Size() succeeds, and on an index at or above Size() throws its
own out-of-range error before consulting the table.  No machine-word
hypothesis is needed: the reachable Choose::Get arguments are controlled by
positions and counters alone, never by table values. -/
theorem c10_choose_get_safe [DecidableEq α] [Inhabited α] (vals : List α) :
    (∀ p : List α, permIndex vals p = .error .invalidInput ∨
      ∃ r, permIndex vals p = .ok r) ∧
    (∀ i, i < prodSizes (makeItemCounts vals) → ∃ out, permGet vals i = .ok out) ∧
    (∀ i, prodSizes (makeItemCounts vals) ≤ i →
      permGet vals i = .error .getOutOfRange) := by
  have hgood := makeItemCounts_good vals
  refine ⟨?_, ?_, ?_⟩
  · intro p
    by_cases hlen : p.length ≠ vals.length
    · left
      rw [permIndex_eq, if_pos hlen]
    · push_neg at hlen
      by_cases hany : ((makeItemCounts vals).any
          (fun ic => !icIsOk ic.val ic.count p)) = true
      · left
        rw [permIndex_eq, if_neg (by omega : ¬ (p.length ≠ vals.length)),
          permIndexImpl_eq, if_pos hany]
      · right
        have hany' : ((makeItemCounts vals).any
            (fun ic => !icIsOk ic.val ic.count p)) = false := by
          simpa using hany
        have hcnt : ∀ ic ∈ makeItemCounts vals, p.count ic.val = ic.count := by
          intro ic hic
          have := List.any_eq_false.mp hany' ic hic
          simpa [icIsOk] using this
        obtain ⟨r, hr⟩ := permIndexGo_ok vals.length (maxCounts (makeItemCounts vals))
          (makeItemCounts vals) p 0 1 hgood
          (by rw [hlen, sumCounts_makeItemCounts]) hcnt
        refine ⟨r, ?_⟩
        rw [permIndex_eq, if_neg (by omega : ¬ (p.length ≠ vals.length)),
          permIndexImpl_eq, if_neg (by simp [hany']), hr]
  · intro i hilt
    obtain ⟨out, hout⟩ := permGetAux_ok vals.length (maxCounts (makeItemCounts vals))
      (makeItemCounts vals) i (List.replicate vals.length none) hgood
      (by rw [countNone_replicate, sumCounts_makeItemCounts])
    exact ⟨out.map (fun o => o.getD default),
      by rw [permGet_eq, if_neg (by omega), hout, ok_map]⟩
  · intro i hige
    rw [permGet_eq, if_pos (by omega)]

/-- Witness for C10: a malformed input, a valid index and an out-of-range
index of the documentation specification. -/
theorem c10_witness :
    (permIndex ([0, 0, 0, 1, 1, 2] : List Nat) [5, 5, 5, 5, 5, 5] =
        .error .invalidInput ∨
      ∃ r, permIndex ([0, 0, 0, 1, 1, 2] : List Nat) [5, 5, 5, 5, 5, 5] = .ok r) ∧
    (∃ out, permGet ([0, 0, 0, 1, 1, 2] : List Nat) 59 = .ok out) ∧
    permGet ([0, 0, 0, 1, 1, 2] : List Nat) 60 = .error .getOutOfRange :=
  ⟨(c10_choose_get_safe [0, 0, 0, 1, 1, 2]).1 [5, 5, 5, 5, 5, 5],
    (c10_choose_get_safe [0, 0, 0, 1, 1, 2]).2.1 59 (by decide),
    (c10_choose_get_safe [0, 0, 0, 1, 1, 2]).2.2 60 (by decide)⟩

/-- C9: whenever ItemCount::Get is called with a local index strictly below
C(N, C) and a buffer in which exactly N slots are unfilled (and a table
large enough for its reads, as in every codec), all C copies are placed on
exit: the returned remain_cnt is 0, so the defensive assert at the end of
the function holds. -/
theorem c9_get_places_all [DecidableEq α] (N2 M2 NN CC idx : Nat) (v : α)
    (arr : List (Option α)) (h1 : countNone arr = NN)
    (h2 : idx < Nat.choose NN CC) (h3 : NN ≤ N2) (h4 : CC ≤ M2) :
    ∃ out, icGetAux N2 M2 v NN arr 0 CC idx = .ok (out, 0) := by
  have hCN : CC ≤ NN := by
    by_contra h
    rw [Nat.choose_eq_zero_of_lt (by omega)] at h2
    omega
  obtain ⟨out, hout, _⟩ :=
    icGetAux_ok N2 M2 v NN h3 arr 0 CC idx (by omega) (by omega) h4
  exact ⟨out, hout⟩

/-- Witness for C9: placing one copy among two unfilled slots of a
three-slot buffer with local index 1. -/
theorem c9_witness :
    countNone [none, some 5, none] = 2 ∧ 1 < Nat.choose 2 1 ∧
    ∃ out, icGetAux 3 2 (7 : Nat) 2 [none, some 5, none] 0 1 1 = .ok (out, 0) :=
  ⟨by decide, by decide,
    c9_get_places_all 3 2 2 1 1 7 [none, some 5, none]
      (by decide) (by decide) (by decide) (by decide)⟩

/-- C8: for the empty specification the decomposition produces an empty
entry list, the checked size computation succeeds with Size() = 1 (one
empty arrangement), and the unique-count helper returns 0 on the empty
pack. -/
theorem c8_empty_spec [LinearOrder α] [DecidableEq α] :
    uniqueCount ([] : List α) = 0 ∧ makeItemCounts ([] : List α) = [] ∧
      prodSizes (makeItemCounts ([] : List α)) = 1 ∧
      sizeImpl ((makeItemCounts ([] : List α)).map icSize) = some 1 :=
  ⟨rfl, rfl, rfl, rfl⟩

/-- C5 counterexample: the claim asserts Get(n, m) = C(n, m) whenever
0 <= m <= n <= N, but Choose<T, 2, 1>.Get(2, 2) throws the out-of-range
runtime_error (because m = 2 exceeds the column bound M = 1) instead of
returning C(2, 2) = 1. -/
theorem c5_counterexample :
    chooseGet 2 1 2 2 = .error .chooseOutOfRange ∧ Nat.choose 2 2 = 1 :=
  ⟨rfl, rfl⟩

/-- C5 as amended: Get(n, m) returns C(n, m) on the range 1 <= n <= N,
m <= min(n, M) (exactly, provided the entry fits a machine word), and
returns 0 whenever m > n; the corner case Get(0, 0) passes the range
guards but reads the table out of bounds, and m <= n with n <= N but
m > M throws. -/
theorem c5_choose_get (N M n m : Nat) (hMN : M ≤ N) :
    (1 ≤ n → n ≤ N → m ≤ M → m ≤ n → Nat.choose n m < WORD →
      chooseGet N M n m = .ok (Nat.choose n m)) ∧
    (n < m → chooseGet N M n m = .ok 0) ∧
    (chooseGet N M 0 0 = .error .oobRead) := by
  refine ⟨?_, ?_, ?_⟩
  · intro h1 h2 h3 _ h5
    exact chooseGet_exact N M n m h1 h2 h3 h5
  · intro h
    simp [chooseGet, h]
  · rfl

/-- Witness for C5 at the documentation example Choose<T, 4, 2>.Get(4, 2) = 6
and at a pair with m > n. -/
theorem c5_witness :
    (2 : Nat) ≤ 4 ∧
    chooseGet 4 2 4 2 = .ok (Nat.choose 4 2) ∧
    chooseGet 4 2 1 2 = .ok 0 :=
  ⟨by decide,
    (c5_choose_get 4 2 4 2 (by decide)).1 (by decide) (by decide)
      (by decide) (by decide) (by decide),
    (c5_choose_get 4 2 1 2 (by decide)).2.1 (by decide)⟩

/-! Claims C3, C4, C6: the decomposition order and the wrapped size. -/

theorem foldl_dedup_eq [DecidableEq α] :
    ∀ (l : List α) (acc : List α),
      l.foldl (fun acc x => if x ∈ acc then acc else acc ++ [x]) acc =
        acc ++ (makeItemCounts (l.filter (fun x => decide (x ∉ acc)))).map
          (fun ic => ic.val) := by
  intro l
  induction l with
  | nil =>
    intro acc
    simp [makeItemCounts_nil]
  | cons x xs ih =>
    intro acc
    simp only [List.foldl_cons]
    by_cases hx : x ∈ acc
    · rw [if_pos hx, ih acc]
      have hf : (x :: xs).filter (fun y => decide (y ∉ acc)) =
          xs.filter (fun y => decide (y ∉ acc)) := by
        rw [List.filter_cons, if_neg (by simpa using hx)]
      rw [hf]
    · rw [if_neg hx, ih (acc ++ [x])]
      have hf : (x :: xs).filter (fun y => decide (y ∉ acc)) =
          x :: xs.filter (fun y => decide (y ∉ acc)) := by
        rw [List.filter_cons, if_pos (by simpa using hx)]
      rw [hf, makeItemCounts_cons]
      have hff : xs.filter (fun y => decide (y ∉ acc ++ [x])) =
          (xs.filter (fun y => decide (y ∉ acc))).filter (fun y => y != x) := by
        rw [List.filter_filter]
        apply List.filter_congr
        intro y _
        by_cases h1 : y ∈ acc <;> by_cases h2 : y = x <;>
          simp [h1, h2, List.mem_append]
      rw [hff, List.map_cons, List.append_assoc, List.singleton_append]

/-- C4 counterexample: on the documentation example (3, 3, 4, 2, 6, 4) the
decomposition emits the distinct symbols as (3, 4, 2, 6), the
first-occurrence order of the original input, not the ascending canonical
order (2, 3, 4, 6) the claim asserts. -/
theorem c4_counterexample :
    (makeItemCounts [(3 : Nat), 3, 4, 2, 6, 4]).map (fun ic => ic.val) =
        [3, 4, 2, 6] ∧
      (makeItemCounts [(3 : Nat), 3, 4, 2, 6, 4]).map (fun ic => ic.val) ≠
        [2, 3, 4, 6] :=
  ⟨by decide, by decide⟩

/-- C4 as amended: the multiset decomposition emits one entry per distinct
symbol in the order of the first occurrence of the symbol in the original
input sequence (the scan of MakeItemCountsImplCalc never sorts), stated
against an independent left-fold first-occurrence deduplication. -/
theorem c4_first_occurrence_order [DecidableEq α] (l : List α) :
    (makeItemCounts l).map (fun ic => ic.val) = firstOccDedup l := by
  have h := foldl_dedup_eq l []
  rw [firstOccDedup]
  have hf : l.filter (fun x => decide (x ∉ ([] : List α))) = l := by
    apply List.filter_eq_self.mpr
    intro a _
    simp
  rw [h, hf, List.nil_append]

/-- C3 as amended: whenever the exact size product fits a machine word
(the condition construction is meant to enforce; see C6), Size() equals
the multinomial coefficient N! divided by the product of the factorials of
the per-symbol counts. -/
theorem c3_size_multinomial [DecidableEq α] (vals : List α)
    (hsz : trueProd vals < WORD) :
    prodSizes (makeItemCounts vals) =
      (vals.length).factorial /
        ((makeItemCounts vals).map (fun ic => ic.count.factorial)).prod := by
  have hps := prodSizes_makeItemCounts_eq vals hsz
  have htel := trueProdIcs_mul_factorials (makeItemCounts vals)
    (makeItemCounts_good vals)
  rw [sumCounts_makeItemCounts] at htel
  have hpos : 0 < ((makeItemCounts vals).map (fun ic => ic.count.factorial)).prod := by
    apply List.prod_pos
    intro a ha
    obtain ⟨ic, _, he⟩ := List.mem_map.mp ha
    rw [← he]
    exact Nat.factorial_pos _
  rw [hps]
  exact (Nat.div_eq_of_eq_mul_left hpos htel.symm).symm

/-- Witness for C3 at the documentation specification: Size() = 60 =
6!/(3! 2! 1!). -/
theorem c3_witness :
    trueProd ([0, 0, 0, 1, 1, 2] : List Nat) < WORD ∧
    prodSizes (makeItemCounts ([0, 0, 0, 1, 1, 2] : List Nat)) =
      ([0, 0, 0, 1, 1, 2] : List Nat).length.factorial /
        ((makeItemCounts ([0, 0, 0, 1, 1, 2] : List Nat)).map
          (fun ic => ic.count.factorial)).prod :=
  ⟨by decide, c3_size_multinomial [0, 0, 0, 1, 1, 2] (by decide)⟩

theorem choose_70_35_value : Nat.choose 70 35 = 112186277816662845432 := by
  rw [Nat.choose_eq_factorial_div_factorial (by norm_num)]
  decide

theorem mic_spec70 :
    makeItemCounts (List.replicate 35 (0 : Nat) ++ List.replicate 35 1) =
      [ItemCount.mk 0 70 35, ItemCount.mk 1 35 35] := by decide

theorem trueProd_spec70 :
    trueProd (List.replicate 35 (0 : Nat) ++ List.replicate 35 1) =
      112186277816662845432 := by
  rw [trueProd, mic_spec70]
  show Nat.choose 70 35 * (Nat.choose 35 35 * 1) = _
  rw [Nat.choose_self, choose_70_35_value]

theorem sizes_spec70 :
    (makeItemCounts (List.replicate 35 (0 : Nat) ++
        List.replicate 35 1)).map icSize = [1505813374405535736, 1] := by
  rw [mic_spec70]
  show [icSize (ItemCount.mk (0 : Nat) 70 35),
    icSize (ItemCount.mk (1 : Nat) 35 35)] = _
  rw [show icSize (ItemCount.mk (0 : Nat) 70 35) = chooseMetaFunc 70 35 from rfl,
    show icSize (ItemCount.mk (1 : Nat) 35 35) = chooseMetaFunc 35 35 from rfl,
    chooseMetaFunc_eq 70 35, chooseMetaFunc_eq 35 35, choose_70_35_value,
    Nat.choose_self]
  decide

/-- C3 counterexample: for the specification of 35 zeros and 35 ones the
reported size product is the wrapped value C(70, 35) mod 2^64, not the
multinomial 70!/(35! 35!): the per-symbol factor wraps inside
ChooseMetaFunc before SizeImpl ever multiplies it (see C6). -/
theorem c3_counterexample :
    prodSizes (makeItemCounts (List.replicate 35 (0 : Nat) ++
        List.replicate 35 1)) ≠
      (List.replicate 35 (0 : Nat) ++ List.replicate 35 1).length.factorial /
        ((makeItemCounts (List.replicate 35 (0 : Nat) ++
            List.replicate 35 1)).map (fun ic => ic.count.factorial)).prod := by
  have hp : prodSizes (makeItemCounts (List.replicate 35 (0 : Nat) ++
      List.replicate 35 1)) = 1505813374405535736 := by
    rw [prodSizes, sizes_spec70]
    decide
  have hlen : (List.replicate 35 (0 : Nat) ++ List.replicate 35 1).length = 70 := by
    decide
  have hfac : ((makeItemCounts (List.replicate 35 (0 : Nat) ++
      List.replicate 35 1)).map (fun ic => ic.count.factorial)).prod =
      Nat.factorial 35 * (Nat.factorial 35 * 1) := by
    rw [mic_spec70]
    rfl
  rw [hp, hlen, hfac]
  have hdiv : Nat.factorial 70 / (Nat.factorial 35 * (Nat.factorial 35 * 1)) =
      112186277816662845432 := by decide
  rw [hdiv]
  decide

/-- C6 (code bug): for the specification of 35 zeros and 35 ones the exact
size product C(70, 35) exceeds SIZE_MAX, yet construction does not fail.
ItemCount::Size() computes each factor through ChooseMetaFunc with
wrapping size_t arithmetic, so the checked multiplication of SizeImpl only
ever sees the wrapped factor C(70, 35) mod 2^64 = 1505813374405535736:
every per-iteration overflow assert passes, the final static_assert
SizeImpl() < SIZE_MAX passes, and the constructed codec silently reports
that wrapped Size(). -/
theorem c6_overflow_missed :
    SIZE_MAX < trueProd (List.replicate 35 (0 : Nat) ++ List.replicate 35 1) ∧
    sizeImpl ((makeItemCounts (List.replicate 35 (0 : Nat) ++
        List.replicate 35 1)).map icSize) = some 1505813374405535736 ∧
    (1505813374405535736 : Nat) ≠
      trueProd (List.replicate 35 (0 : Nat) ++ List.replicate 35 1) ∧
    (1505813374405535736 : Nat) < SIZE_MAX := by
  rw [trueProd_spec70, sizes_spec70]
  exact ⟨by decide, by decide, by decide, by decide⟩

end Komoperm
